import Mathlib

/-!
# Road traffic exporter: live simulator, rate controller and backfill

A shallow embedding of `cmd/road_traffic_exporter/main.go`.

Modelling conventions.

* `float64` quantities (`currentCars`, gauge and counter values, backfill
  quantities) are modelled by exact rationals.  Every value the live
  simulator can store is a multiple of `1/2` of small magnitude, on which
  binary64 addition, subtraction and comparison are exact; the products
  `150 * 0.8`, `50 * 0.05` and `100 * 0.4` round in binary64 to exactly
  `120`, `2.5` and `40`, the values of the rational products.
* `int64` fields are integers; the only arithmetic on them is the delay
  computation, which is wrapped to 64 bits.
* A Go map with `float64` values is a function: a missing key reads as
  `0`, as in Go.  The road registry is a partial function on road names.
* Concurrent workers are interleaved one loop iteration at a time; the
  random draws of an iteration are arguments of the iteration.
* The values returned by `rand.Float64()` during a backfill are a sequence
  `rnd : Nat → ℚ`, and the order in which a `range` over a map enumerates its
  keys is an argument of the loop.
-/

namespace RoadTraffic

/-! ## Data model -/

/-- The Go struct `Road` (the mutex is not data). -/
structure Road where
  name : String
  currentCars : ℚ
  entryRate : Int
  exitRate : Int
  capacity : Int
  minDelay : Int

/-- The three metric vectors registered with the metrics registry.
`carCounter` is keyed by (road, color, maker) and an absent child reads
as `0`; the two gauges are keyed by road and are `none` until first set. -/
structure Metrics where
  carCounter : String → String → String → ℚ
  carsOnRoad : String → Option ℚ
  trafficPattern : String → Option ℚ

/-- The process state: the global registry `roads` and the metrics. -/
structure World where
  roads : String → Option Road
  metrics : Metrics

def defaultEntryRate : Int := 1
def defaultExitRate : Int := 1
def defaultCapacity : Int := 100
def defaultMinDelay : Int := 500

/-- Constructor `NewRoad`: `currentCars` takes the zero value. -/
def NewRoad (name : String) : Road :=
  { name := name
    currentCars := 0
    entryRate := defaultEntryRate
    exitRate := defaultExitRate
    capacity := defaultCapacity
    minDelay := defaultMinDelay }

def colors : List String := ["red", "blue", "green", "black", "white"]
def makers : List String := ["Toyota", "Ford", "BMW", "Tesla", "Honda"]

/-- Two's complement wrap-around of a 64-bit signed integer. -/
def wrapInt64 (x : Int) : Int := (x + 2 ^ 63) % 2 ^ 64 - 2 ^ 63

/-- Update of a map at one key. -/
def setKey {β : Type} (f : String → β) (k : String) (v : β) : String → β :=
  fun k' => if k' = k then v else f k'

/-- The expression
`time.Duration(rand.Int63n(1000)/currentRate + minDelay) * time.Millisecond`
in nanoseconds; `none` is the run-time panic of an integer division by
zero. -/
def workerDelay (u : Fin 1000) (currentRate minDelay : Int) : Option Int :=
  if currentRate = 0 then none
  else some (wrapInt64 (wrapInt64 (Int.tdiv (u.val : Int) currentRate + minDelay) * 1000000))

/-! ## Live simulator -/

/-- One iteration of the loop of `Road.simulateCarEntry`.  `u` is the draw
of `rand.Int63n(1000)`, `ci` and `mi` the draws of `rand.Intn(5)` for the
color and the maker.  The result carries the delay the worker sleeps. -/
def Road.simulateCarEntry (r : Road) (m : Metrics) (u : Fin 1000) (ci mi : Fin 5) :
    Option (Road × Metrics × Int) :=
  let currentRate := r.entryRate
  match workerDelay u currentRate r.minDelay with
  | none => none
  | some delay =>
    let canAdd : Bool := decide (r.currentCars < (r.capacity : ℚ))
    if canAdd then
      let color := colors.getD ci.val ""
      let maker := makers.getD mi.val ""
      let r1 := { r with currentCars := r.currentCars + 1 }
      let m1 := { m with carsOnRoad := setKey m.carsOnRoad r1.name (some r1.currentCars) }
      let m2 := { m1 with
        carCounter := fun a b c =>
          if a = r1.name ∧ b = color ∧ c = maker then m1.carCounter a b c + 1
          else m1.carCounter a b c }
      some (r1, m2, delay)
    else
      some (r, m, delay)

/-- One iteration of the loop of `Road.simulateCarExit`. -/
def Road.simulateCarExit (r : Road) (m : Metrics) (u : Fin 1000) :
    Option (Road × Metrics × Int) :=
  let currentRate := r.exitRate
  match workerDelay u currentRate r.minDelay with
  | none => none
  | some delay =>
    let canRemove : Bool := decide (r.currentCars > 0)
    if canRemove then
      let r1 := { r with currentCars := r.currentCars - 1 }
      let m1 := { m with carsOnRoad := setKey m.carsOnRoad r1.name (some r1.currentCars) }
      some (r1, m1, delay)
    else
      some (r, m, delay)

/-! ## Rate controller -/

/-- What the handler writes to the client. -/
structure Response where
  status : Nat
  body : String

/-- The `switch rate` of `setRate`: the stores into the road, the value
set on the `traffic_pattern` gauge, and `targetCars`, computed from the
capacity just stored. -/
def applyPreset (road : Road) (rate : String) : Road × ℚ × ℚ :=
  if rate = "rush_hour" then
    let road1 := { road with entryRate := 8, exitRate := 2, capacity := 150, minDelay := 100 }
    (road1, 3, (road1.capacity : ℚ) * 0.8)
  else if rate = "night" then
    let road1 := { road with entryRate := 1, exitRate := 12, capacity := 50, minDelay := 10000 }
    (road1, 1, (road1.capacity : ℚ) * 0.05)
  else
    let road1 := { road with entryRate := 3, exitRate := 4, capacity := 100, minDelay := 1000 }
    (road1, 2, (road1.capacity : ℚ) * 0.4)

/-- The handler `setRate`, given the query parameters `road` and `rate`. -/
def setRate (w : World) (roadName rate : String) : World × Response :=
  match w.roads roadName with
  | none => (w, { status := 404, body := "Road " ++ roadName ++ " not found\n" })
  | some road =>
    let currentCars := road.currentCars
    let p := applyPreset road rate
    let road1 := p.1
    let m1 := { w.metrics with
      trafficPattern := setKey w.metrics.trafficPattern road1.name (some p.2.1) }
    let targetCars := p.2.2
    let resp : Response :=
      { status := 200
        body := "Traffic pattern for road " ++ roadName ++ " set to " ++ rate }
    if currentCars > targetCars then
      let adjustment := currentCars - targetCars
      let road2 := { road1 with currentCars := road1.currentCars - adjustment }
      let m2 := { m1 with carsOnRoad := setKey m1.carsOnRoad road2.name (some road2.currentCars) }
      ({ roads := setKey w.roads roadName (some road2), metrics := m2 }, resp)
    else
      ({ roads := setKey w.roads roadName (some road1), metrics := m1 }, resp)

/-! ## Sequential executions of the live system -/

/-- The registry after the road-creation loop of `main` over `roadNames`,
with no metric child created yet. -/
def initWorld (roadNames : List String) : World :=
  { roads := roadNames.foldl (fun reg name => setKey reg name (some (NewRoad name))) (fun _ => none)
    metrics :=
      { carCounter := fun _ _ _ => 0
        carsOnRoad := fun _ => none
        trafficPattern := fun _ => none } }

/-- The road names of `main`. -/
def mainRoadNames : List String := ["road-1", "road-6", "Ayalon", "road-90", "road-431"]

/-- One atomic step of the system: a loop iteration of an entry or exit
worker of a road, or a call of the `/set_rate` handler. -/
inductive Action where
  | entry (road : String) (u : Fin 1000) (ci mi : Fin 5)
  | exit (road : String) (u : Fin 1000)
  | applyPattern (road rate : String)

/-- Run one step.  Workers exist only for registered roads, so a worker
step on an unregistered name changes nothing.  `none` is a panic. -/
def step (w : World) : Action → Option World
  | .entry road u ci mi =>
    match w.roads road with
    | none => some w
    | some r =>
      match r.simulateCarEntry w.metrics u ci mi with
      | none => none
      | some (r1, m1, _) => some { roads := setKey w.roads road (some r1), metrics := m1 }
  | .exit road u =>
    match w.roads road with
    | none => some w
    | some r =>
      match r.simulateCarExit w.metrics u with
      | none => none
      | some (r1, m1, _) => some { roads := setKey w.roads road (some r1), metrics := m1 }
  | .applyPattern road rate => some (setRate w road rate).1

/-- Run a finite sequence of steps, one at a time. -/
def run (w : World) : List Action → Option World
  | [] => some w
  | a :: as =>
    match step w a with
    | none => none
    | some w1 => run w1 as

/-- The occupancy of a road after a run, when the run does not panic and
the road is registered. -/
def occupancyAfter (roadNames : List String) (as : List Action) (road : String) : Option ℚ :=
  match run (initWorld roadNames) as with
  | none => none
  | some w => (w.roads road).map Road.currentCars

/-- The capacity of a road after a run. -/
def capacityAfter (roadNames : List String) (as : List Action) (road : String) : Option Int :=
  match run (initWorld roadNames) as with
  | none => none
  | some w => (w.roads road).map Road.capacity

/-! ## Time -/

/-- An instant (`time.Time`), in nanoseconds since the Unix epoch, UTC. -/
abbrev Time := Int

def millisecond : Int := 1000000
def second : Int := 1000 * millisecond
def minute : Int := 60 * second

/-- Seconds from the zero `time.Time` (1 January of year 1) to the Unix
epoch. -/
def unixToInternal : Int := 62135596800

/-- Method `t.Add(d)`. -/
def Time.Add (t : Time) (d : Int) : Time := t + d

/-- Method `t.Truncate(d)`: round `t` down to a multiple of `d` since the zero
time; `t` itself when `d <= 0`. -/
def Time.Truncate (t : Time) (d : Int) : Time :=
  if d ≤ 0 then t else t - (t + unixToInternal * second) % d

/-- Method `t.Before(u)`. -/
def Time.Before (t u : Time) : Bool := decide (t < u)

/-- Method `t.After(u)`. -/
def Time.After (t u : Time) : Bool := decide (t > u)

/-- Method `t.UnixMilli()`; the instant is a whole number of nanoseconds. -/
def Time.UnixMilli (t : Time) : Int := t / millisecond

/-- Method `t.Hour()` of an instant in UTC. -/
def Time.Hour (t : Time) : Int := (t / second) % 86400 / 3600

/-- Days from the Unix epoch to a date of the proleptic Gregorian
calendar. -/
def daysFromCivil (y m d : Int) : Int :=
  let y1 := if m ≤ 2 then y - 1 else y
  let era := y1 / 400
  let yoe := y1 - era * 400
  let doy := (153 * ((m + 9) % 12) + 2) / 5 + d - 1
  let doe := yoe * 365 + yoe / 4 - yoe / 100 + doy
  era * 146097 + doe - 719468

/-- The instant of a UTC calendar date and time of day. -/
def utcDate (y m d hh mm ss : Int) : Time :=
  (daysFromCivil y m d * 86400 + hh * 3600 + mm * 60 + ss) * second

/-! ## Backfill reconstructor -/

/-- Variable `endTime := now.Add(-1 * time.Minute).Truncate(time.Minute)`. -/
def backfillEndTime (now : Time) : Time :=
  Time.Truncate (Time.Add now (-1 * minute)) minute

/-- Variable `startTime := endTime.Add(-55 * time.Minute)`. -/
def backfillStartTime (now : Time) : Time :=
  Time.Add (backfillEndTime now) (-55 * minute)

/-- The loop `for t := startTime; t.Before(endTime); t = t.Add(5 * time.Minute)`
appending `t`, started at `t`; `none` when the loop is still running after
`fuel` tests of its condition. -/
def timestampsLoop (endTime : Time) : Nat → Time → Option (List Time)
  | 0, _ => none
  | fuel + 1, t =>
    if Time.Before t endTime then
      (timestampsLoop endTime fuel (Time.Add t (5 * minute))).map (fun ts => t :: ts)
    else some []

/-- The slice `timestamps` of `backfillData`. -/
def backfillTimestamps (now : Time) : Option (List Time) :=
  timestampsLoop (backfillEndTime now)
    (((backfillEndTime now - backfillStartTime now) / (5 * minute)).toNat + 1)
    (backfillStartTime now)

def emptyRoadTime : ℚ := 10.0
def normalTrafficTime : ℚ := 25.0
def rushHourTime : ℚ := 40.0

/-- The `switch` on `hourOfDay`: `(baseRate, travelTime)`. -/
def regime (hourOfDay : Int) : ℚ × ℚ :=
  if hourOfDay ≥ 7 ∧ hourOfDay ≤ 9 then (4.0, rushHourTime)
  else if hourOfDay ≥ 16 ∧ hourOfDay ≤ 18 then (4.0, rushHourTime)
  else if hourOfDay ≥ 23 ∨ hourOfDay ≤ 4 then (0.5, emptyRoadTime)
  else (2.0, normalTrafficTime)

/-- Conversion of a `float64` to an integer type: the fraction is
discarded. -/
def truncToInt (q : ℚ) : Int := if 0 ≤ q then ⌊q⌋ else ⌈q⌉

/-- An element of `recentEntries[roadName]`. -/
structure RecentEntry where
  time : Time
  color : String
  maker : String
  count : ℚ

/-- The value type of `dataPoint.roadData`. -/
structure RoadData where
  cars : String → ℚ
  totals : String → ℚ

/-- The local type `dataPoint`. -/
structure DataPoint where
  timestamp : Int
  roadData : String → Option RoadData

/-- The variables of `backfillData` that live across timestamps, and the
number of values drawn so far from the random source. -/
structure BackfillState where
  totals : String → ℚ
  currentCars : String → String → ℚ
  recentEntries : String → List RecentEntry
  drawn : Nat

/-- The map key `color + "/" + maker`. -/
def cohortKey (color maker : String) : String := color ++ "/" ++ maker

/-- The state before the first timestamp: all totals and counts `0`, no
recent entry. -/
def BackfillState.init : BackfillState :=
  { totals := fun _ => 0
    currentCars := fun _ _ => 0
    recentEntries := fun _ => []
    drawn := 0 }

/-- Body of the loop over `recentEntries[roadName]`: `acc` holds
`currentCars[roadName]` and `newRecentEntries`. -/
def keepEntry (cutoffTime : Time) (acc : (String → ℚ) × List RecentEntry)
    (entry : RecentEntry) : (String → ℚ) × List RecentEntry :=
  if Time.After entry.time cutoffTime then
    let key := cohortKey entry.color entry.maker
    (setKey acc.1 key (acc.1 key + entry.count), acc.2 ++ [entry])
  else acc

/-- Body of the innermost loop over `makers`: one arrival.  `rnd i` is the
value of the `i`-th call of `rand.Float64()`. -/
def generateEntry (rnd : Nat → ℚ) (t : Time) (roadName : String) (baseRate : ℚ)
    (color : String) (acc : BackfillState × RoadData) (maker : String) :
    BackfillState × RoadData :=
  let st := acc.1
  let key := cohortKey color maker
  let entering := baseRate * (0.5 + rnd st.drawn)
  let cars := st.currentCars roadName key + entering
  let total := st.totals key + entering
  ({ totals := setKey st.totals key total
     currentCars := setKey st.currentCars roadName (setKey (st.currentCars roadName) key cars)
     recentEntries := setKey st.recentEntries roadName
       (st.recentEntries roadName ++ [{ time := t, color := color, maker := maker, count := entering }])
     drawn := st.drawn + 1 },
   { cars := setKey acc.2.cars key cars
     totals := setKey acc.2.totals key total })

/-- Body of the loop `for roadName := range roads` at timestamp `t`. -/
def processRoad (rnd : Nat → ℚ) (t : Time)
    (acc : BackfillState × (String → Option RoadData)) (roadName : String) :
    BackfillState × (String → Option RoadData) :=
  let st := acc.1
  let r := regime (Time.Hour t)
  let baseRate := r.1
  let travelTime := r.2
  let cutoffTime := Time.Add t (-(truncToInt travelTime) * minute)
  let kept := (st.recentEntries roadName).foldl (keepEntry cutoffTime) (fun _ => 0, [])
  let st1 : BackfillState :=
    { st with
      currentCars := setKey st.currentCars roadName kept.1
      recentEntries := setKey st.recentEntries roadName kept.2 }
  let out := colors.foldl
    (fun a color => makers.foldl (generateEntry rnd t roadName baseRate color) a)
    (st1, ({ cars := fun _ => 0, totals := fun _ => 0 } : RoadData))
  (out.1, setKey acc.2 roadName (some out.2))

/-- The loop `for _, t := range timestamps`.  `order i` is the order in
which the `i`-th execution of `for roadName := range roads` enumerates the
registry. -/
def backfillLoop (rnd : Nat → ℚ) (order : Nat → List String) :
    List Time → Nat → BackfillState → List DataPoint → BackfillState × List DataPoint
  | [], _, st, dps => (st, dps)
  | t :: ts, i, st, dps =>
    let r := (order i).foldl (processRoad rnd t) (st, fun _ => none)
    backfillLoop rnd order ts (i + 1) r.1
      (dps ++ [{ timestamp := Time.UnixMilli t, roadData := r.2 }])

/-- The slice `dataPoints` computed by `backfillData` at clock value
`now`. -/
def backfillDataPoints (rnd : Nat → ℚ) (order : Nat → List String) (now : Time) :
    Option (List DataPoint) :=
  (backfillTimestamps now).map
    (fun ts => (backfillLoop rnd order ts 0 BackfillState.init []).2)

/-- The sample value of the `road_traffic_total` series of
(road, color, maker) built from a data point. -/
def DataPoint.total (dp : DataPoint) (road color maker : String) : Option ℚ :=
  (dp.roadData road).map (fun rd => rd.totals (cohortKey color maker))

/-- The sample value of the `cars_on_road` series of (road, color, maker)
built from a data point. -/
def DataPoint.cars (dp : DataPoint) (road color maker : String) : Option ℚ :=
  (dp.roadData road).map (fun rd => rd.cars (cohortKey color maker))

/-! ## Inputs used in the statements below -/

/-- The capacity stored by the case of `setRate` selected by `rate`. -/
def presetCapacity (rate : String) : Int :=
  if rate = "rush_hour" then 150 else if rate = "night" then 50 else 100

/-- The factor of `targetCars` in the case of `setRate` selected by `rate`. -/
def presetFraction (rate : String) : ℚ :=
  if rate = "rush_hour" then 0.8 else if rate = "night" then 0.05 else 0.4

/-- The value set on the `traffic_pattern` gauge in the case of `setRate`
selected by `rate`. -/
def presetCode (rate : String) : ℚ :=
  if rate = "rush_hour" then 3 else if rate = "night" then 1 else 2

/-- Three entries on `road-1`, the pattern `night`, then three exits. -/
def drainTrace : List Action :=
  [ .entry "road-1" 0 0 0, .entry "road-1" 0 0 0, .entry "road-1" 0 0 0,
    .applyPattern "road-1" "night",
    .exit "road-1" 0, .exit "road-1" 0, .exit "road-1" 0 ]

/-- Three entries on `road-1`, the pattern `night`, then 48 entries. -/
def fillTrace : List Action :=
  [ .entry "road-1" 0 0 0, .entry "road-1" 0 0 0, .entry "road-1" 0 0 0,
    .applyPattern "road-1" "night" ] ++ List.replicate 48 (.entry "road-1" 0 0 0)

/-- The registry holding the single road `road` under its name, with no
metric child created yet. -/
def oneRoadWorld (road : Road) : World :=
  { roads := setKey (fun _ => none) road.name (some road)
    metrics :=
      { carCounter := fun _ _ _ => 0
        carsOnRoad := fun _ => none
        trafficPattern := fun _ => none } }

/-- A road of capacity 100 carrying 40 cars. -/
def road40 : Road := { NewRoad "road-1" with currentCars := 40 }

/-- The instant 2024-01-01T12:00:00Z. -/
def noon2024 : Time := utcDate 2024 1 1 12 0 0

/-- A random source whose every draw is `1/2`. -/
def halfDraws : Nat → ℚ := fun _ => 1 / 2

/-- Every enumeration of the registry of `main` in the order of
`mainRoadNames`. -/
def mainOrder : Nat → List String := fun _ => mainRoadNames

/-! ## Further inputs and derived quantities -/

/-- The largest `int64`. -/
def maxInt64 : Int := 2 ^ 63 - 1

/-- The rush-hour condition of the `switch` on `hourOfDay` (its first two
cases). -/
def isRushHour (h : Int) : Prop := (h ≥ 7 ∧ h ≤ 9) ∨ (h ≥ 16 ∧ h ≤ 18)

/-- The night condition of the `switch` on `hourOfDay` (its third case). -/
def isNightHour (h : Int) : Prop := h ≥ 23 ∨ h ≤ 4

instance (h : Int) : Decidable (isRushHour h) := by unfold isRushHour; infer_instance

instance (h : Int) : Decidable (isNightHour h) := by unfold isNightHour; infer_instance

/-- Every registered road has entry and exit rates of at least 1. -/
def RatesPositive (w : World) : Prop :=
  ∀ n r, w.roads n = some r → 1 ≤ r.entryRate ∧ 1 ≤ r.exitRate

/-- Every registered road carries a `minDelay` that the code stores: the
default of `NewRoad` or the value of one of the three presets. -/
def MinDelayStored (w : World) : Prop :=
  ∀ n r, w.roads n = some r →
    r.minDelay = 500 ∨ r.minDelay = 100 ∨ r.minDelay = 10000 ∨ r.minDelay = 1000

/-- The sample instant of index `k` of the backfill at clock value `now`:
`startTime + k * 5 min`. -/
def sampleTime (now : Time) (k : Nat) : Time :=
  backfillStartTime now + (k : Int) * (5 * minute)

/-- The span `time.Duration(travelTime) * time.Minute` that separates
`cutoffTime` from the timestamp `t` it is computed at. -/
def travelSpan (t : Time) : Int := truncToInt (regime (Time.Hour t)).2 * minute

/-- One iteration of the loop over timestamps, before the data point is
appended: the state and `dp.roadData` after the loop over the roads, which
are enumerated in the order `names`. -/
def backfillStep (rnd : Nat → ℚ) (names : List String) (t : Time) (st : BackfillState) :
    BackfillState × (String → Option RoadData) :=
  names.foldl (processRoad rnd t) (st, fun _ => none)

/-- The state after the iterations of the loop over the timestamps `ts`,
the first of which has index `i`. -/
def stateAfter (rnd : Nat → ℚ) (order : Nat → List String) :
    List Time → Nat → BackfillState → BackfillState
  | [], _, st => st
  | t :: ts, i, st => stateAfter rnd order ts (i + 1) (backfillStep rnd (order i) t st).1

/-- The sum of the counts of the records of `l` filed under the map key
`key`. -/
def sumKey (key : String) (l : List RecentEntry) : ℚ :=
  ((l.filter (fun e => decide (cohortKey e.color e.maker = key))).map RecentEntry.count).sum

/-- The 25 (color, maker) pairs in the order of the nested loops over
`colors` and `makers`. -/
def cohortPairs : List (String × String) := List.product colors makers

/-- The records appended by the arrival loops at timestamp `t` over the
pairs `ps`, when `d` values have been drawn before. -/
def arrivalsOf (rnd : Nat → ℚ) (t : Time) (baseRate : ℚ) :
    List (String × String) → Nat → List RecentEntry
  | [], _ => []
  | p :: ps, d =>
    { time := t, color := p.1, maker := p.2, count := baseRate * (0.5 + rnd d) } ::
      arrivalsOf rnd t baseRate ps (d + 1)

/-- The 25 records appended for one road at timestamp `t`, when `d` values
have been drawn before the turn of the road. -/
def arrivalsFrom (rnd : Nat → ℚ) (t : Time) (d : Nat) : List RecentEntry :=
  arrivalsOf rnd t (regime (Time.Hour t)).1 cohortPairs d

/-- The records of `l` that pass the test `entry.time.After(cutoffTime)` at
timestamp `t`. -/
def keptAt (t : Time) (l : List RecentEntry) : List RecentEntry :=
  l.filter (fun e => Time.After e.time (Time.Add t (-(truncToInt (regime (Time.Hour t)).2) * minute)))

/-- The state after the loop over `recentEntries[roadName]` at timestamp
`t`: the road keeps the records that pass the cutoff, and its counts are
their sums. -/
def afterKeep (t : Time) (st : BackfillState) (road : String) : BackfillState :=
  { st with
    currentCars := setKey st.currentCars road
      (fun key => sumKey key (keptAt t (st.recentEntries road)))
    recentEntries := setKey st.recentEntries road (keptAt t (st.recentEntries road)) }

/-- The arrival loops of one road at timestamp `t`, run from the state
`st` with empty road data. -/
def arrivalLoops (rnd : Nat → ℚ) (t : Time) (road : String) (st : BackfillState) :
    BackfillState × RoadData :=
  cohortPairs.foldl
    (fun a p => generateEntry rnd t road (regime (Time.Hour t)).1 p.1 a p.2)
    (st, ({ cars := fun _ => 0, totals := fun _ => 0 } : RoadData))

/-- The state of the backfill at clock value `now` when the samples of
index below `k` have been processed. -/
def stateAt (rnd : Nat → ℚ) (order : Nat → List String) (now : Time) (k : Nat) :
    BackfillState :=
  stateAfter rnd order ((List.range k).map (sampleTime now)) 0 BackfillState.init

/-- The data point appended for the sample of index `k`. -/
def dataPointAt (rnd : Nat → ℚ) (order : Nat → List String) (now : Time) (k : Nat) :
    DataPoint :=
  { timestamp := Time.UnixMilli (sampleTime now k)
    roadData := (backfillStep rnd (order k) (sampleTime now k) (stateAt rnd order now k)).2 }

/-- The records retained for a road once the sample of index `k` has been
processed. -/
def retainedAfter (rnd : Nat → ℚ) (order : Nat → List String) (now : Time) (k : Nat)
    (road : String) : List RecentEntry :=
  (stateAt rnd order now (k + 1)).recentEntries road

/-- The number of values drawn from the random source before the turn of
`road` at the sample of index `k`: 25 for each turn of a road before. -/
def drawsBefore (order : Nat → List String) (k : Nat) (road : String) : Nat :=
  25 * ((List.range k).map (fun i => (order i).length)).sum + 25 * (order k).indexOf road

/-- The 25 arrival records of `road` at the sample of index `k`. -/
def arrivalsAt (rnd : Nat → ℚ) (order : Nat → List String) (now : Time) (k : Nat)
    (road : String) : List RecentEntry :=
  arrivalsFrom rnd (sampleTime now k) (drawsBefore order k road)

/-- Whether a record that entered at the sample of index `j` passes the
cutoff of every later sample up to the one of index `k`. -/
def survives (now : Time) (j k : Nat) : Bool :=
  (List.range (k + 1)).all (fun u =>
    decide (u ≤ j ∨ sampleTime now u - travelSpan (sampleTime now u) < sampleTime now j))

/-- The arrival quantity `entering` of (road, color, maker) at the sample of
index `j`: the base rate of the sample times `0.5` plus the draw made for
the cohort in the turn of the road. -/
def arrivalQty (rnd : Nat → ℚ) (order : Nat → List String) (now : Time) (j : Nat)
    (road color maker : String) : ℚ :=
  (regime (Time.Hour (sampleTime now j))).1 *
    (0.5 + rnd (drawsBefore order j road + cohortPairs.indexOf (color, maker)))

/-- The sum of the arrival quantities of (road, color, maker) at the samples
up to index `k` whose records pass every cutoff up to the sample `k`. -/
def retainedSum (rnd : Nat → ℚ) (order : Nat → List String) (now : Time) (k : Nat)
    (road color maker : String) : ℚ :=
  ∑ j in Finset.range (k + 1),
    if survives now j k then arrivalQty rnd order now j road color maker else 0

/-- The sum of the arrival quantities of (road, color, maker) at the samples
`s` up to index `k` with `t - travelTime(regime of t) < s`, where `t` is the
sample of index `k`. -/
def slidingSum (rnd : Nat → ℚ) (order : Nat → List String) (now : Time) (k : Nat)
    (road color maker : String) : ℚ :=
  ∑ j in Finset.range (k + 1),
    if sampleTime now k - travelSpan (sampleTime now k) < sampleTime now j then
      arrivalQty rnd order now j road color maker
    else 0

/-- The concatenation of the lists `f 0`, ..., `f (n - 1)`. -/
def recordsUpTo (f : Nat → List RecentEntry) : Nat → List RecentEntry
  | 0 => []
  | n + 1 => recordsUpTo f n ++ f n

/-- The instant 2024-01-01T05:30:30Z, whose window crosses from hour 4
(night) to hour 5 (normal). -/
def dawn2024 : Time := utcDate 2024 1 1 5 30 30

/-- A random source whose first 25 draws are `0` and whose later draws are
`1/2`. -/
def stepDraws : Nat → ℚ := fun i => if i < 25 then 0 else 1 / 2

/-- Every enumeration of the registry of `main` in the reverse of the
order of `mainRoadNames`. -/
def reversedOrder : Nat → List String := fun _ => mainRoadNames.reverse

/-- A label of a time series (`prompb.Label`). -/
structure Label where
  name : String
  value : String
  deriving DecidableEq

/-- A sample of a time series (`prompb.Sample`). -/
structure Sample where
  value : ℚ
  timestamp : Int

/-- A time series of the write request (`prompb.TimeSeries`). -/
structure TimeSeries where
  labels : List Label
  samples : List Sample

/-- Body of the innermost loop of the second pass of `backfillData`: the
`cars_on_road` series and the `road_traffic_total` series of one cohort of
one road at one data point are appended to `timeseries`. -/
def appendCohort (dp : DataPoint) (roadName : String) (roadData : RoadData) (color : String)
    (timeseries : List TimeSeries) (maker : String) : List TimeSeries :=
  let key := cohortKey color maker
  timeseries ++
    [{ labels := [⟨"__name__", "cars_on_road"⟩, ⟨"road", roadName⟩, ⟨"color", color⟩,
        ⟨"maker", maker⟩]
       samples := [{ value := roadData.cars key, timestamp := dp.timestamp }] },
     { labels := [⟨"__name__", "road_traffic_total"⟩, ⟨"road", roadName⟩, ⟨"color", color⟩,
        ⟨"maker", maker⟩]
       samples := [{ value := roadData.totals key, timestamp := dp.timestamp }] }]

/-- Body of the loop `for roadName, roadData := range dp.roadData`; a name
that is not a key of the map is not enumerated. -/
def appendRoad (dp : DataPoint) (timeseries : List TimeSeries) (roadName : String) :
    List TimeSeries :=
  match dp.roadData roadName with
  | none => timeseries
  | some roadData =>
    colors.foldl
      (fun acc color => makers.foldl (appendCohort dp roadName roadData color) acc)
      timeseries

/-- The loop `for _, dp := range dataPoints` of the second pass.  `order2 i`
is the order in which the map `roadData` of the `i`-th data point is
enumerated. -/
def buildTimeseries (order2 : Nat → List String) :
    List DataPoint → Nat → List TimeSeries → List TimeSeries
  | [], _, timeseries => timeseries
  | dp :: dps, i, timeseries =>
    buildTimeseries order2 dps (i + 1) ((order2 i).foldl (appendRoad dp) timeseries)

/-- The slice `timeseries` that `backfillData` puts into the write request
at clock value `now`. -/
def backfillTimeseries (rnd : Nat → ℚ) (order order2 : Nat → List String) (now : Time) :
    Option (List TimeSeries) :=
  (backfillDataPoints rnd order now).map (fun dps => buildTimeseries order2 dps 0 [])

/-- The label sets of the two time series appended for each pair of `ps`
in the turn of a road, in order. -/
def cohortLabels (roadName : String) : List (String × String) → List (List Label)
  | [] => []
  | p :: ps =>
    [⟨"__name__", "cars_on_road"⟩, ⟨"road", roadName⟩, ⟨"color", p.1⟩, ⟨"maker", p.2⟩] ::
    [⟨"__name__", "road_traffic_total"⟩, ⟨"road", roadName⟩, ⟨"color", p.1⟩, ⟨"maker", p.2⟩] ::
      cohortLabels roadName ps

/-- The label sets of the time series appended for the roads `names` at one
data point, in order. -/
def roadLabels : List String → List (List Label)
  | [] => []
  | n :: names => cohortLabels n cohortPairs ++ roadLabels names

/-- The list `l` repeated `n` times. -/
def repeatLabels (l : List (List Label)) : Nat → List (List Label)
  | 0 => []
  | n + 1 => l ++ repeatLabels l n

/-! ## Maps and presets -/

theorem setKey_same {β : Type} (f : String → β) (k : String) (v : β) :
    setKey f k v k = v := by
  simp [setKey]

theorem setKey_setKey {β : Type} (f : String → β) (k : String) (v v' : β) :
    setKey (setKey f k v) k v' = setKey f k v' := by
  funext k'
  by_cases hk : k' = k <;> simp [setKey, hk]

theorem applyPreset_currentCars (road : Road) (rate : String) :
    (applyPreset road rate).1.currentCars = road.currentCars := by
  unfold applyPreset
  split_ifs <;> rfl

theorem applyPreset_name (road : Road) (rate : String) :
    (applyPreset road rate).1.name = road.name := by
  unfold applyPreset
  split_ifs <;> rfl

theorem applyPreset_capacity (road : Road) (rate : String) :
    (applyPreset road rate).1.capacity = presetCapacity rate := by
  unfold applyPreset presetCapacity
  split_ifs <;> rfl

theorem applyPreset_code (road : Road) (rate : String) :
    (applyPreset road rate).2.1 = presetCode rate := by
  unfold applyPreset presetCode
  split_ifs <;> rfl

theorem applyPreset_target (road : Road) (rate : String) :
    (applyPreset road rate).2.2 = (presetCapacity rate : ℚ) * presetFraction rate := by
  unfold applyPreset presetCapacity presetFraction
  split_ifs <;> simp

theorem applyPreset_night (road : Road) :
    applyPreset road "night" =
      ({ road with entryRate := 1, exitRate := 12, capacity := 50, minDelay := 10000 },
        1, 5 / 2) := by
  have h : ¬ ("night" = "rush_hour") := by decide
  simp only [applyPreset, if_neg h, if_true]
  norm_num

theorem applyPreset_other (road : Road) (s : String) (h1 : s ≠ "rush_hour")
    (h2 : s ≠ "night") : applyPreset road s = applyPreset road "normal" := by
  simp [applyPreset, h1, h2]

/-- Applying a preset to a road that already carries it changes nothing,
whatever the occupancy. -/
theorem applyPreset_absorb (road : Road) (p : String) (c : ℚ) :
    applyPreset { (applyPreset road p).1 with currentCars := c } p =
      ({ (applyPreset road p).1 with currentCars := c }, (applyPreset road p).2) := by
  unfold applyPreset
  split_ifs <;> rfl

theorem applyPreset_idem (road : Road) (p : String) :
    applyPreset (applyPreset road p).1 p = applyPreset road p := by
  unfold applyPreset
  split_ifs <;> rfl

/-! ## The handler on a registered road -/

/-- The whole effect of `setRate` on a registered road. -/
theorem setRate_of_some (w : World) (roadName rate : String) (road : Road)
    (h : w.roads roadName = some road) :
    setRate w roadName rate =
      (if road.currentCars > (applyPreset road rate).2.2 then
        { roads := setKey w.roads roadName
            (some { (applyPreset road rate).1 with currentCars := (applyPreset road rate).2.2 })
          metrics :=
            { w.metrics with
              trafficPattern :=
                setKey w.metrics.trafficPattern road.name (some (applyPreset road rate).2.1)
              carsOnRoad :=
                setKey w.metrics.carsOnRoad road.name (some (applyPreset road rate).2.2) } }
      else
        { roads := setKey w.roads roadName (some (applyPreset road rate).1)
          metrics :=
            { w.metrics with
              trafficPattern :=
                setKey w.metrics.trafficPattern road.name (some (applyPreset road rate).2.1) } },
      { status := 200
        body := "Traffic pattern for road " ++ roadName ++ " set to " ++ rate }) := by
  unfold setRate
  rw [h]
  by_cases hc : road.currentCars > (applyPreset road rate).2.2
  · simp [hc, applyPreset_name, applyPreset_currentCars]
  · simp [hc, applyPreset_name]

/-- The road stored by `setRate` for a registered road. -/
theorem setRate_roads_of_some (w : World) (roadName rate : String) (road : Road)
    (h : w.roads roadName = some road) :
    (setRate w roadName rate).1.roads roadName =
      some (if road.currentCars > (applyPreset road rate).2.2 then
        { (applyPreset road rate).1 with currentCars := (applyPreset road rate).2.2 }
      else (applyPreset road rate).1) := by
  rw [setRate_of_some w roadName rate road h]
  by_cases hc : road.currentCars > (applyPreset road rate).2.2
  · simp [hc, setKey]
  · simp [hc, setKey]

theorem setRate_trafficPattern_of_some (w : World) (roadName rate : String) (road : Road)
    (h : w.roads roadName = some road) :
    (setRate w roadName rate).1.metrics.trafficPattern =
      setKey w.metrics.trafficPattern road.name (some (presetCode rate)) := by
  rw [setRate_of_some w roadName rate road h]
  by_cases hc : road.currentCars > (applyPreset road rate).2.2
  · simp [hc, applyPreset_code]
  · simp [hc, applyPreset_code]

theorem oneRoadWorld_roads (road : Road) :
    (oneRoadWorld road).roads road.name = some road := by
  simp [oneRoadWorld, setKey]

theorem road40_registered : (oneRoadWorld road40).roads "road-1" = some road40 :=
  oneRoadWorld_roads road40

theorem road40_nowhere : (oneRoadWorld road40).roads "nowhere" = none := by
  have h : ¬ ("nowhere" = "road-1") := by decide
  simp [oneRoadWorld, setKey, road40, NewRoad, h]

/-! ## Claims on the live simulator and the rate controller -/

/-- C1 (fails on the code): occupancy does not stay non-negative.  From
the registry of `main`, three entry cycles on `road-1`, the pattern
`night` (which snaps the occupancy 3 down to the target 2.5) and three
exit cycles leave `road-1` with occupancy `-1/2`: the exit guard
`currentCars > 0` holds at `1/2` and the decrement is a whole car. -/
theorem occupancy_negative_after_night_drain :
    occupancyAfter mainRoadNames drainTrace "road-1" = some (-1 / 2) := by
  decide!

/-- C2 (fails on the code): an entry cycle takes a road from below its
capacity to above it.  From the registry of `main`, three entry cycles on
`road-1`, the pattern `night` and 47 entry cycles give occupancy `99/2`
under capacity 50; one more entry cycle gives `101/2`, capacity still 50:
the entry guard `currentCars < capacity` holds at `99/2` and the
increment is a whole car. -/
theorem entry_overshoots_capacity_after_night :
    occupancyAfter mainRoadNames fillTrace.dropLast "road-1" = some (99 / 2) ∧
    capacityAfter mainRoadNames fillTrace.dropLast "road-1" = some 50 ∧
    occupancyAfter mainRoadNames fillTrace "road-1" = some (101 / 2) ∧
    capacityAfter mainRoadNames fillTrace "road-1" = some 50 := by
  decide!

/-- C3: `setRate` rebalances asymmetrically.  For a registered road and any
pattern name, with target = (capacity stored by the selected preset) x
(fraction of the preset), the road after the call carries the preset
capacity; its occupancy is exactly the target when the occupancy before
was above the target, and is the occupancy before otherwise. -/
theorem setRate_rebalances (w : World) (roadName rate : String) (road : Road)
    (h : w.roads roadName = some road) :
    ∃ road', (setRate w roadName rate).1.roads roadName = some road' ∧
      road'.capacity = presetCapacity rate ∧
      (road.currentCars > (presetCapacity rate : ℚ) * presetFraction rate →
        road'.currentCars = (presetCapacity rate : ℚ) * presetFraction rate) ∧
      (road.currentCars ≤ (presetCapacity rate : ℚ) * presetFraction rate →
        road'.currentCars = road.currentCars) := by
  refine ⟨_, setRate_roads_of_some w roadName rate road h, ?_, ?_, ?_⟩
  · split_ifs <;> simp [applyPreset_capacity]
  · intro hgt
    rw [← applyPreset_target road rate] at hgt ⊢
    simp [hgt]
  · intro hle
    rw [← applyPreset_target road rate] at hle
    simp [not_lt.mpr hle, applyPreset_currentCars]

/-- Witness of C3: the road of capacity 100 carrying 40 cars, pattern
`night`. -/
theorem setRate_rebalances_witness :
    (oneRoadWorld road40).roads "road-1" = some road40 ∧
    ∃ road', (setRate (oneRoadWorld road40) "road-1" "night").1.roads "road-1" = some road' ∧
      road'.capacity = presetCapacity "night" ∧
      (road40.currentCars > (presetCapacity "night" : ℚ) * presetFraction "night" →
        road'.currentCars = (presetCapacity "night" : ℚ) * presetFraction "night") ∧
      (road40.currentCars ≤ (presetCapacity "night" : ℚ) * presetFraction "night" →
        road'.currentCars = road40.currentCars) :=
  ⟨oneRoadWorld_roads road40,
    setRate_rebalances (oneRoadWorld road40) "road-1" "night" road40 (oneRoadWorld_roads road40)⟩

/-- C4 as stated is false: it is not the case that every road of capacity
100 carrying 40 cars is left with occupancy 5 by the pattern `night`. -/
theorem night_scenario_not_five :
    ¬ ∀ (w : World) (roadName : String) (road : Road),
      w.roads roadName = some road → road.capacity = 100 → road.currentCars = 40 →
      ((setRate w roadName "night").1.roads roadName).map Road.currentCars = some 5 := by
  intro hall
  have h := hall (oneRoadWorld road40) "road-1" road40 road40_registered rfl rfl
  rw [setRate_roads_of_some _ _ _ _ road40_registered, applyPreset_night] at h
  norm_num [road40, NewRoad] at h

/-- C4 amended: for a registered road of capacity 100 carrying 40 cars,
the pattern `night` first stores the night capacity 50, uses the target
`50 * 0.05 = 2.5`, and leaves the road with capacity 50 and occupancy
exactly 2.5. -/
theorem night_scenario_amended (w : World) (roadName : String) (road : Road)
    (h : w.roads roadName = some road) (_hcap : road.capacity = 100)
    (hocc : road.currentCars = 40) :
    (applyPreset road "night").2.2 = 5 / 2 ∧
    ((setRate w roadName "night").1.roads roadName).map Road.capacity = some 50 ∧
    ((setRate w roadName "night").1.roads roadName).map Road.currentCars = some (5 / 2) := by
  rw [setRate_roads_of_some _ _ _ _ h, applyPreset_night]
  norm_num [hocc]

/-- Witness of C4 amended: the single-road registry holding `road40`. -/
theorem night_scenario_amended_witness :
    ((oneRoadWorld road40).roads "road-1" = some road40 ∧ road40.capacity = 100 ∧
      road40.currentCars = 40) ∧
    (applyPreset road40 "night").2.2 = 5 / 2 ∧
    ((setRate (oneRoadWorld road40) "road-1" "night").1.roads "road-1").map Road.capacity
      = some 50 ∧
    ((setRate (oneRoadWorld road40) "road-1" "night").1.roads "road-1").map Road.currentCars
      = some (5 / 2) :=
  ⟨⟨oneRoadWorld_roads road40, rfl, rfl⟩,
    night_scenario_amended (oneRoadWorld road40) "road-1" road40 (oneRoadWorld_roads road40)
      rfl rfl⟩

/-- C5: preset lookup of `setRate`.  For a registered road and any pattern
name `s`, the `traffic_pattern` gauge of the road after the call is 3 for
`rush_hour`, 1 for `night` and 2 for every other string; and for every
other string the whole state after the call (the four rate parameters and
the occupancy of the road included) is the state after applying `normal`
to the same prior state. -/
theorem setRate_pattern_lookup (w : World) (roadName s : String) (road : Road)
    (h : w.roads roadName = some road) :
    (setRate w roadName s).1.metrics.trafficPattern road.name =
      some (if s = "rush_hour" then 3 else if s = "night" then 1 else 2) ∧
    (s ≠ "rush_hour" → s ≠ "night" →
      (setRate w roadName s).1 = (setRate w roadName "normal").1) := by
  constructor
  · rw [setRate_trafficPattern_of_some _ _ _ _ h, setKey_same]
    rfl
  · intro h1 h2
    unfold setRate
    rw [h]
    simp only [applyPreset_other road s h1 h2]
    split_ifs <;> rfl

/-- Witness of C5: an unknown pattern name on the single-road registry. -/
theorem setRate_pattern_lookup_witness :
    (oneRoadWorld road40).roads "road-1" = some road40 ∧
    (setRate (oneRoadWorld road40) "road-1" "weekend").1.metrics.trafficPattern road40.name =
      some (if "weekend" = "rush_hour" then 3 else if "weekend" = "night" then 1 else 2) ∧
    ("weekend" ≠ "rush_hour" → "weekend" ≠ "night" →
      (setRate (oneRoadWorld road40) "road-1" "weekend").1 =
        (setRate (oneRoadWorld road40) "road-1" "normal").1) :=
  ⟨oneRoadWorld_roads road40,
    setRate_pattern_lookup (oneRoadWorld road40) "road-1" "weekend" road40
      (oneRoadWorld_roads road40)⟩

/-- C6: `setRate` answers 404 (not found) exactly when the road name is
absent from the registry, and then the state after the call (every road,
every metric) is the state before. -/
theorem setRate_not_found (w : World) (roadName rate : String) :
    ((setRate w roadName rate).2.status = 404 ↔ w.roads roadName = none) ∧
    (w.roads roadName = none → (setRate w roadName rate).1 = w) := by
  unfold setRate
  cases h : w.roads roadName with
  | none => simp
  | some road =>
    simp only [reduceCtorEq, iff_false, false_implies, and_true]
    split_ifs <;> simp

/-- Witness of C6: an unregistered name on the single-road registry. -/
theorem setRate_not_found_witness :
    (oneRoadWorld road40).roads "nowhere" = none ∧
    (setRate (oneRoadWorld road40) "nowhere" "night").2.status = 404 ∧
    (setRate (oneRoadWorld road40) "nowhere" "night").1 = oneRoadWorld road40 :=
  ⟨road40_nowhere,
    (setRate_not_found (oneRoadWorld road40) "nowhere" "night").1.mpr road40_nowhere,
    (setRate_not_found (oneRoadWorld road40) "nowhere" "night").2 road40_nowhere⟩

/-- C7: rate application is idempotent.  For every state, road name and
pattern name, calling `setRate` twice in succession gives the same state
(registry and metrics) and the same response as calling it once. -/
theorem setRate_idempotent (w : World) (roadName p : String) :
    setRate (setRate w roadName p).1 roadName p = setRate w roadName p := by
  cases h : w.roads roadName with
  | none =>
    have h1 : setRate w roadName p =
        (w, { status := 404, body := "Road " ++ roadName ++ " not found\n" }) := by
      unfold setRate; rw [h]
    rw [h1]
    exact h1
  | some road =>
    rw [setRate_of_some w roadName p road h]
    by_cases hc : road.currentCars > (applyPreset road p).2.2
    · rw [if_pos hc, setRate_of_some _ roadName p _ (setKey_same _ _ _), applyPreset_absorb]
      simp [setKey_setKey, applyPreset_name]
    · rw [if_neg hc, setRate_of_some _ roadName p _ (setKey_same _ _ _), applyPreset_idem]
      simp [setKey_setKey, applyPreset_name, applyPreset_currentCars, hc]

/-! ## The backfill window -/

theorem minute_eq : minute = 60000000000 := by decide

theorem truncate_minute (t : Time) : Time.Truncate t minute = t - t % minute := by
  unfold Time.Truncate
  rw [if_neg (by decide)]
  have h : (unixToInternal * second) % minute = 0 := by decide
  have h2 : (t + unixToInternal * second) % minute = t % minute := by
    rw [Int.add_emod, h, add_zero, Int.emod_emod]
  rw [h2]

theorem backfillEndTime_eq (now : Time) :
    backfillEndTime now = (now - minute) - (now - minute) % minute := by
  unfold backfillEndTime Time.Add
  rw [truncate_minute]
  ring_nf

theorem backfillStartTime_eq (now : Time) :
    backfillStartTime now = backfillEndTime now - 55 * minute := by
  unfold backfillStartTime Time.Add
  ring

/-- The end of the window is the whole minute at or before `now - 1 min`. -/
theorem backfillEndTime_floor (now : Time) :
    backfillEndTime now % minute = 0 ∧ backfillEndTime now ≤ now - minute ∧
      now - minute < backfillEndTime now + minute := by
  rw [backfillEndTime_eq]
  have hpos : (0 : Int) < minute := by decide
  have h1 := Int.emod_nonneg (now - minute) (ne_of_gt hpos)
  have h2 := Int.emod_lt_of_pos (now - minute) hpos
  refine ⟨?_, by linarith, by linarith⟩
  exact Int.emod_eq_zero_of_dvd (Int.dvd_sub_of_emod_eq rfl)

/-- The timestamp loop leaves by its condition after exactly `n` appends
when `n` is the first index at which `t + n * 5 min` is not before
`endTime`, provided more than `n` tests are allowed. -/
theorem timestampsLoop_spec (e : Time) (n : Nat) :
    ∀ (t : Time) (fuel : Nat), n < fuel → e ≤ t + (n : Int) * (5 * minute) →
      (∀ k : Nat, k < n → t + (k : Int) * (5 * minute) < e) →
      timestampsLoop e fuel t =
        some ((List.range n).map (fun (k : Nat) => t + (k : Int) * (5 * minute))) := by
  induction n with
  | zero =>
    intro t fuel hf he _
    obtain ⟨f, rfl⟩ : ∃ f, fuel = f + 1 := ⟨fuel - 1, by omega⟩
    have hnb : ¬ t < e := by simpa using he
    simp [timestampsLoop, Time.Before, hnb]
  | succ n ih =>
    intro t fuel hf he hlt
    obtain ⟨f, rfl⟩ : ∃ f, fuel = f + 1 := ⟨fuel - 1, by omega⟩
    have h0 : t < e := by simpa using hlt 0 (Nat.succ_pos n)
    have hrec := ih (Time.Add t (5 * minute)) f (by omega)
      (by unfold Time.Add; push_cast at he; linarith)
      (by
        intro k hk
        have := hlt (k + 1) (by omega)
        unfold Time.Add; push_cast at this; linarith)
    simp only [timestampsLoop, Time.Before, h0, decide_True, if_true, hrec, Option.map]
    rw [List.range_succ_eq_map]
    simp only [List.map_cons, List.map_map, Nat.cast_zero, zero_mul, add_zero]
    congr 2
    apply List.map_congr_left
    intro k _
    simp only [Function.comp, Time.Add]
    push_cast
    ring

theorem backfillTimestamps_eq (now : Time) :
    backfillTimestamps now =
      some ((List.range 11).map
        (fun (k : Nat) => backfillStartTime now + (k : Int) * (5 * minute))) := by
  have hs := backfillStartTime_eq now
  have hf : ((backfillEndTime now - backfillStartTime now) / (5 * minute)).toNat + 1 = 12 := by
    rw [hs]
    have : backfillEndTime now - (backfillEndTime now - 55 * minute) = 55 * minute := by ring
    rw [this]
    decide
  unfold backfillTimestamps
  rw [hf]
  apply timestampsLoop_spec
  · decide
  · rw [hs, minute_eq]; norm_num
  · intro k hk
    rw [hs, minute_eq]
    have : (k : Int) ≤ 10 := by exact_mod_cast Nat.lt_succ_iff.mp hk
    linarith

/-- Every timestamp of the window is a whole number of milliseconds, lies
in `[startTime, endTime)`, more than a minute before `now` and less than
an hour before `now`. -/
theorem backfillTimestamps_mem (now : Time) (ts : List Time)
    (h : backfillTimestamps now = some ts) (t : Time) (ht : t ∈ ts) :
    Time.UnixMilli t * millisecond = t ∧
      backfillStartTime now ≤ t ∧ t < backfillEndTime now ∧
      t < now - minute ∧ now - 60 * minute < t := by
  rw [backfillTimestamps_eq] at h
  injection h with h
  subst h
  obtain ⟨k, hk, rfl⟩ := List.mem_map.mp ht
  have hk10 : (k : Int) ≤ 10 := by
    have := List.mem_range.mp hk
    exact_mod_cast Nat.lt_succ_iff.mp this
  have hk0 : (0 : Int) ≤ k := Int.ofNat_nonneg k
  obtain ⟨hmod, hle, hlt⟩ := backfillEndTime_floor now
  have hs := backfillStartTime_eq now
  rw [minute_eq] at hle hlt hs ⊢
  refine ⟨?_, by linarith, by linarith, by linarith, by linarith⟩
  unfold Time.UnixMilli
  apply Int.ediv_mul_cancel
  have hd : millisecond ∣ backfillEndTime now :=
    Dvd.dvd.trans (by decide : millisecond ∣ minute) (Int.dvd_of_emod_eq_zero hmod)
  rw [hs]
  apply Dvd.dvd.add
  · exact Dvd.dvd.sub hd (by decide)
  · exact Dvd.dvd.mul_left (by decide) _

/-- The data points carry the millisecond timestamps of the window, in
order. -/
theorem backfillLoop_timestamps (rnd : Nat → ℚ) (order : Nat → List String) :
    ∀ (ts : List Time) (i : Nat) (st : BackfillState) (dps : List DataPoint),
      (backfillLoop rnd order ts i st dps).2.map DataPoint.timestamp =
        dps.map DataPoint.timestamp ++ ts.map Time.UnixMilli := by
  intro ts
  induction ts with
  | nil => intro i st dps; simp [backfillLoop]
  | cons t ts ih =>
    intro i st dps
    simp only [backfillLoop]
    rw [ih]
    simp

/-! ## Claims on the backfill reconstructor -/

/-- C8 (fails on the code): the cumulative total emitted for a road counts
the arrivals of other roads.  With the registry of `main` enumerated in
the order of `mainRoadNames`, every draw `1/2` and
`now = 2024-01-01T12:00:00Z`, the first data point (11:04, base rate 2)
carries the total 4 for (`road-6`, red, Toyota), although the only arrival
recorded for that road and cohort at that timestamp has quantity 2; the
other 2 is the arrival on `road-1`, enumerated first.  The map `totals` of
`backfillData` is keyed by cohort only. -/
theorem backfill_totals_shared_across_roads :
    (backfillDataPoints halfDraws mainOrder noon2024).bind
      (fun dps => dps.head?.bind (fun dp => dp.total "road-6" "red" "Toyota")) = some 4 ∧
    (((backfillLoop halfDraws mainOrder [utcDate 2024 1 1 11 4 0] 0
        BackfillState.init []).1.recentEntries "road-6").filter
      (fun e => decide (e.color = "red" ∧ e.maker = "Toyota"))).map RecentEntry.count = [2] ∧
    (((backfillLoop halfDraws mainOrder [utcDate 2024 1 1 11 4 0] 0
        BackfillState.init []).1.recentEntries "road-1").filter
      (fun e => decide (e.color = "red" ∧ e.maker = "Toyota"))).map RecentEntry.count = [2] := by
  decide!

/-- C9: the backfill window.  For every clock value `now`, `endTime` is
`now - 1 min` rounded down to the whole minute, `startTime` is
`endTime - 55 min`, the timestamp loop ends and yields exactly the 11
instants `startTime + k * 5 min`, `k = 0..10`, in increasing order, all in
`[startTime, endTime)`; and for `now = 2024-01-01T12:00:00Z` the window
is 11:04:00Z to 11:59:00Z. -/
theorem backfill_window (now : Time) :
    (backfillEndTime now % minute = 0 ∧ backfillEndTime now ≤ now - minute ∧
      now - minute < backfillEndTime now + minute) ∧
    backfillStartTime now = backfillEndTime now - 55 * minute ∧
    (∃ ts, backfillTimestamps now = some ts ∧
      ts = (List.range 11).map
        (fun (k : Nat) => backfillStartTime now + (k : Int) * (5 * minute)) ∧
      ts.length = 11 ∧ ts.Pairwise (fun a b => a < b) ∧
      ∀ t ∈ ts, backfillStartTime now ≤ t ∧ t < backfillEndTime now) ∧
    backfillEndTime (utcDate 2024 1 1 12 0 0) = utcDate 2024 1 1 11 59 0 ∧
    backfillStartTime (utcDate 2024 1 1 12 0 0) = utcDate 2024 1 1 11 4 0 := by
  refine ⟨backfillEndTime_floor now, backfillStartTime_eq now,
    ⟨_, backfillTimestamps_eq now, rfl, by simp, ?_, ?_⟩, by decide, by decide⟩
  · apply List.Pairwise.map _ _ (List.pairwise_lt_range 11)
    intro a b hab
    have : (a : Int) < b := by exact_mod_cast hab
    rw [minute_eq]
    linarith
  · intro t ht
    have := backfillTimestamps_mem now _ (backfillTimestamps_eq now) t ht
    exact ⟨this.2.1, this.2.2.1⟩

/-- Witness of C9 at `now = 2024-01-01T12:00:00Z`: the first timestamp of
the window is 11:04:00Z and lies in the window. -/
theorem backfill_window_witness :
    ∃ ts, backfillTimestamps noon2024 = some ts ∧ ts.length = 11 ∧
      ts.head? = some (utcDate 2024 1 1 11 4 0) ∧
      ∀ t ∈ ts, backfillStartTime noon2024 ≤ t ∧ t < backfillEndTime noon2024 := by
  obtain ⟨ts, h1, h2, h3, _, h5⟩ := (backfill_window noon2024).2.2.1
  refine ⟨ts, h1, h3, ?_, h5⟩
  rw [h2]
  decide

/-- C10: timestamp bounds relative to the live head.  For every random
source, enumeration order and clock value `now`, the backfill yields 11
data points, and the timestamp of each (in milliseconds, compared in
nanoseconds) is strictly earlier than `now - 1 min` and strictly later
than `now - 1 h`. -/
theorem backfill_timestamp_bounds (rnd : Nat → ℚ) (order : Nat → List String) (now : Time) :
    ∃ dps, backfillDataPoints rnd order now = some dps ∧ dps.length = 11 ∧
      ∀ dp ∈ dps, dp.timestamp * millisecond < now - minute ∧
        now - 60 * minute < dp.timestamp * millisecond := by
  have hts := backfillTimestamps_eq now
  refine ⟨_, by unfold backfillDataPoints; rw [hts]; rfl, ?_, ?_⟩
  · have h := congrArg List.length
      (backfillLoop_timestamps rnd order
        ((List.range 11).map (fun (k : Nat) => backfillStartTime now + (k : Int) * (5 * minute)))
        0 BackfillState.init [])
    simpa using h
  · intro dp hdp
    have hmem : dp.timestamp ∈ List.map DataPoint.timestamp
        (backfillLoop rnd order
          ((List.range 11).map (fun (k : Nat) => backfillStartTime now + (k : Int) * (5 * minute)))
          0 BackfillState.init []).2 := List.mem_map_of_mem _ hdp
    rw [backfillLoop_timestamps, List.map_nil, List.nil_append] at hmem
    obtain ⟨t, ht, hte⟩ := List.mem_map.mp hmem
    have hb := backfillTimestamps_mem now _ hts t ht
    rw [← hte, hb.1]
    exact ⟨hb.2.2.2.1, hb.2.2.2.2⟩

/-- Witness of C10 at `now = 2024-01-01T12:00:00Z` with every draw `1/2`
and the registry of `main`. -/
theorem backfill_timestamp_bounds_witness :
    ∃ dps, backfillDataPoints halfDraws mainOrder noon2024 = some dps ∧ dps.length = 11 ∧
      ∀ dp ∈ dps, dp.timestamp * millisecond < noon2024 - minute ∧
        noon2024 - 60 * minute < dp.timestamp * millisecond :=
  backfill_timestamp_bounds halfDraws mainOrder noon2024

/-! ## Worker cycles -/

theorem workerDelay_isSome (u : Fin 1000) (rate minDelay : Int) :
    (workerDelay u rate minDelay).isSome = true ↔ rate ≠ 0 := by
  unfold workerDelay
  split_ifs with h <;> simp [h]


/-- The entry cycle in closed form. -/
theorem simulateCarEntry_eq (r : Road) (m : Metrics) (u : Fin 1000) (ci mi : Fin 5) :
    r.simulateCarEntry m u ci mi =
      (workerDelay u r.entryRate r.minDelay).map (fun delay =>
        if r.currentCars < (r.capacity : ℚ) then
          ({ r with currentCars := r.currentCars + 1 },
            { m with
              carsOnRoad := setKey m.carsOnRoad r.name (some (r.currentCars + 1))
              carCounter := fun a b c =>
                if a = r.name ∧ b = colors.getD ci.val "" ∧ c = makers.getD mi.val "" then
                  m.carCounter a b c + 1
                else m.carCounter a b c },
            delay)
        else (r, m, delay)) := by
  unfold Road.simulateCarEntry
  dsimp only
  cases workerDelay u r.entryRate r.minDelay with
  | none => rfl
  | some delay =>
    by_cases hc : r.currentCars < (r.capacity : ℚ) <;> simp [hc]

/-- The exit cycle in closed form. -/
theorem simulateCarExit_eq (r : Road) (m : Metrics) (u : Fin 1000) :
    r.simulateCarExit m u =
      (workerDelay u r.exitRate r.minDelay).map (fun delay =>
        if r.currentCars > 0 then
          ({ r with currentCars := r.currentCars - 1 },
            { m with carsOnRoad := setKey m.carsOnRoad r.name (some (r.currentCars - 1)) },
            delay)
        else (r, m, delay)) := by
  unfold Road.simulateCarExit
  dsimp only
  cases workerDelay u r.exitRate r.minDelay with
  | none => rfl
  | some delay =>
    by_cases hc : r.currentCars > 0 <;> simp [hc]

/-- C15: the entry-worker cycle.  For every road state, metrics and draws,
the cycle completes exactly when the entry rate is not zero, and every
completed cycle satisfies: when the occupancy was below the capacity, the
occupancy grows by exactly 1, the counter of (road, chosen color, chosen
maker) grows by exactly 1 and every other counter is unchanged; when the
occupancy was at or above the capacity, the occupancy and all counters are
unchanged; in both cases the four rate parameters are unchanged. -/
theorem entry_cycle_effect (r : Road) (m : Metrics) (u : Fin 1000) (ci mi : Fin 5) :
    ((r.simulateCarEntry m u ci mi).isSome = true ↔ r.entryRate ≠ 0) ∧
    ∀ (r' : Road) (m' : Metrics) (d : Int),
      r.simulateCarEntry m u ci mi = some (r', m', d) →
      (r.currentCars < (r.capacity : ℚ) →
        r'.currentCars = r.currentCars + 1 ∧
        m'.carCounter r.name (colors.getD ci.val "") (makers.getD mi.val "") =
          m.carCounter r.name (colors.getD ci.val "") (makers.getD mi.val "") + 1 ∧
        ∀ a b c, ¬ (a = r.name ∧ b = colors.getD ci.val "" ∧ c = makers.getD mi.val "") →
          m'.carCounter a b c = m.carCounter a b c) ∧
      ((r.capacity : ℚ) ≤ r.currentCars →
        r'.currentCars = r.currentCars ∧ m'.carCounter = m.carCounter) ∧
      r'.entryRate = r.entryRate ∧ r'.exitRate = r.exitRate ∧
      r'.capacity = r.capacity ∧ r'.minDelay = r.minDelay := by
  rw [simulateCarEntry_eq]
  constructor
  · rw [Option.isSome_map', workerDelay_isSome]
  · intro r' m' d h
    obtain ⟨delay, _, hres⟩ := Option.map_eq_some'.mp h
    by_cases hc : r.currentCars < (r.capacity : ℚ)
    · rw [if_pos hc] at hres
      simp only [Prod.mk.injEq] at hres
      obtain ⟨rfl, rfl, _⟩ := hres
      refine ⟨fun _ => ⟨rfl, if_pos ⟨rfl, rfl, rfl⟩, ?_⟩,
        fun hle => absurd hc (not_lt.mpr hle), rfl, rfl, rfl, rfl⟩
      intro a b c hne
      exact if_neg hne
    · rw [if_neg hc] at hres
      simp only [Prod.mk.injEq] at hres
      obtain ⟨rfl, rfl, _⟩ := hres
      exact ⟨fun hlt => absurd hlt hc, fun _ => ⟨rfl, rfl⟩, rfl, rfl, rfl, rfl⟩

/-- Witness of C15: a cycle of a new road with the cohort (blue, BMW). -/
theorem entry_cycle_effect_witness :
    ∃ r' m' d, (NewRoad "road-1").simulateCarEntry (initWorld mainRoadNames).metrics 7 1 2
        = some (r', m', d) ∧
      r'.currentCars = 1 ∧ m'.carCounter "road-1" "blue" "BMW" = 1 ∧ r'.capacity = 100 := by
  have hs := (entry_cycle_effect (NewRoad "road-1") (initWorld mainRoadNames).metrics 7 1 2).1.mpr
    (by decide)
  obtain ⟨⟨r', m', d⟩, h⟩ := Option.isSome_iff_exists.mp hs
  obtain ⟨h1, _, _, _, h4, _⟩ :=
    (entry_cycle_effect (NewRoad "road-1") (initWorld mainRoadNames).metrics 7 1 2).2 r' m' d h
  have hlt : (NewRoad "road-1").currentCars < ((NewRoad "road-1").capacity : ℚ) := by
    norm_num [NewRoad, defaultCapacity]
  obtain ⟨h5, h6, _⟩ := h1 hlt
  refine ⟨r', m', d, h, ?_, ?_, ?_⟩
  · rw [h5]; norm_num [NewRoad]
  · have : m'.carCounter "road-1" "blue" "BMW" =
        (initWorld mainRoadNames).metrics.carCounter "road-1" "blue" "BMW" + 1 := h6
    rw [this]; norm_num [initWorld]
  · rw [h4]; rfl

/-- C16: the exit-worker cycle.  For every road state, metrics and draw,
the cycle completes exactly when the exit rate is not zero, and every
completed cycle satisfies: when the occupancy was above 0 it decreases by
exactly 1, otherwise it is unchanged; in both cases no counter and no rate
parameter changes. -/
theorem exit_cycle_effect (r : Road) (m : Metrics) (u : Fin 1000) :
    ((r.simulateCarExit m u).isSome = true ↔ r.exitRate ≠ 0) ∧
    ∀ (r' : Road) (m' : Metrics) (d : Int),
      r.simulateCarExit m u = some (r', m', d) →
      (r.currentCars > 0 → r'.currentCars = r.currentCars - 1) ∧
      (r.currentCars ≤ 0 → r'.currentCars = r.currentCars) ∧
      m'.carCounter = m.carCounter ∧
      r'.entryRate = r.entryRate ∧ r'.exitRate = r.exitRate ∧
      r'.capacity = r.capacity ∧ r'.minDelay = r.minDelay := by
  rw [simulateCarExit_eq]
  constructor
  · rw [Option.isSome_map', workerDelay_isSome]
  · intro r' m' d h
    obtain ⟨delay, _, hres⟩ := Option.map_eq_some'.mp h
    by_cases hc : r.currentCars > 0
    · rw [if_pos hc] at hres
      simp only [Prod.mk.injEq] at hres
      obtain ⟨rfl, rfl, _⟩ := hres
      exact ⟨fun _ => rfl, fun hle => absurd hc (not_lt.mpr hle), rfl, rfl, rfl, rfl, rfl⟩
    · rw [if_neg hc] at hres
      simp only [Prod.mk.injEq] at hres
      obtain ⟨rfl, rfl, _⟩ := hres
      exact ⟨fun hlt => absurd hlt hc, fun _ => rfl, rfl, rfl, rfl, rfl, rfl⟩

/-- Witness of C16: a cycle of the road carrying 40 cars. -/
theorem exit_cycle_effect_witness :
    ∃ r' m' d, road40.simulateCarExit (oneRoadWorld road40).metrics 7 = some (r', m', d) ∧
      r'.currentCars = 39 ∧ r'.exitRate = 1 := by
  have hs := (exit_cycle_effect road40 (oneRoadWorld road40).metrics 7).1.mpr (by decide)
  obtain ⟨⟨r', m', d⟩, h⟩ := Option.isSome_iff_exists.mp hs
  obtain ⟨h1, _, _, _, h4, _⟩ :=
    (exit_cycle_effect road40 (oneRoadWorld road40).metrics 7).2 r' m' d h
  refine ⟨r', m', d, h, ?_, ?_⟩
  · rw [h1 (by norm_num [road40])]; norm_num [road40]
  · rw [h4]; rfl

/-! ## Rates in reachable states -/

theorem initWorld_fold (names : List String) :
    ∀ (reg : String → Option Road), (∀ n r, reg n = some r → r = NewRoad n) →
      ∀ n r, names.foldl (fun reg name => setKey reg name (some (NewRoad name))) reg n = some r →
        r = NewRoad n := by
  induction names with
  | nil => intro reg h n r hr; exact h n r hr
  | cons a as ih =>
    intro reg h n r hr
    rw [List.foldl_cons] at hr
    refine ih _ ?_ n r hr
    intro n' r' h'
    unfold setKey at h'
    split_ifs at h' with hn
    · rw [hn]; exact (Option.some.inj h').symm
    · exact h n' r' h'

/-- Every road of the initial registry is a new road. -/
theorem initWorld_roads (names : List String) (n : String) (r : Road)
    (h : (initWorld names).roads n = some r) : r = NewRoad n :=
  initWorld_fold names (fun _ => none) (fun _ _ h0 => by simp at h0) n r h

theorem applyPreset_rates (road : Road) (rate : String) :
    1 ≤ (applyPreset road rate).1.entryRate ∧ 1 ≤ (applyPreset road rate).1.exitRate := by
  unfold applyPreset
  split_ifs <;> constructor <;> simp

theorem setRate_ratesPositive (w : World) (roadName rate : String)
    (h : RatesPositive w) : RatesPositive (setRate w roadName rate).1 := by
  cases hw : w.roads roadName with
  | none =>
    have h1 : (setRate w roadName rate).1 = w := by unfold setRate; rw [hw]
    rw [h1]; exact h
  | some road =>
    rw [setRate_of_some w roadName rate road hw]
    intro n r hr
    have hp := applyPreset_rates road rate
    by_cases hc : road.currentCars > (applyPreset road rate).2.2
    · rw [if_pos hc] at hr
      simp only [setKey] at hr
      split_ifs at hr with hn
      · rw [← Option.some.inj hr]; exact hp
      · exact h n r hr
    · rw [if_neg hc] at hr
      simp only [setKey] at hr
      split_ifs at hr with hn
      · rw [← Option.some.inj hr]; exact hp
      · exact h n r hr

/-- A step from a state with positive rates does not panic and leaves the
rates positive. -/
theorem step_ratesPositive (w : World) (a : Action) (h : RatesPositive w) :
    ∃ w', step w a = some w' ∧ RatesPositive w' := by
  cases a with
  | entry road u ci mi =>
    cases hw : w.roads road with
    | none => exact ⟨w, by simp [step, hw], h⟩
    | some r =>
      have hr := h road r hw
      have hne : r.entryRate ≠ 0 := by omega
      obtain ⟨delay, hd⟩ := Option.isSome_iff_exists.mp
        ((workerDelay_isSome u r.entryRate r.minDelay).mpr hne)
      have hcyc := simulateCarEntry_eq r w.metrics u ci mi
      rw [hd, Option.map_some'] at hcyc
      by_cases hc : r.currentCars < (r.capacity : ℚ)
      · rw [if_pos hc] at hcyc
        refine ⟨_, by simp only [step, hw, hcyc]; rfl, ?_⟩
        intro n r' hr'
        simp only [setKey] at hr'
        split_ifs at hr' with hn
        · rw [← Option.some.inj hr']; exact hr
        · exact h n r' hr'
      · rw [if_neg hc] at hcyc
        refine ⟨_, by simp only [step, hw, hcyc]; rfl, ?_⟩
        intro n r' hr'
        simp only [setKey] at hr'
        split_ifs at hr' with hn
        · rw [← Option.some.inj hr']; exact hr
        · exact h n r' hr'
  | exit road u =>
    cases hw : w.roads road with
    | none => exact ⟨w, by simp [step, hw], h⟩
    | some r =>
      have hr := h road r hw
      have hne : r.exitRate ≠ 0 := by omega
      obtain ⟨delay, hd⟩ := Option.isSome_iff_exists.mp
        ((workerDelay_isSome u r.exitRate r.minDelay).mpr hne)
      have hcyc := simulateCarExit_eq r w.metrics u
      rw [hd, Option.map_some'] at hcyc
      by_cases hc : r.currentCars > 0
      · rw [if_pos hc] at hcyc
        refine ⟨_, by simp only [step, hw, hcyc]; rfl, ?_⟩
        intro n r' hr'
        simp only [setKey] at hr'
        split_ifs at hr' with hn
        · rw [← Option.some.inj hr']; exact hr
        · exact h n r' hr'
      · rw [if_neg hc] at hcyc
        refine ⟨_, by simp only [step, hw, hcyc]; rfl, ?_⟩
        intro n r' hr'
        simp only [setKey] at hr'
        split_ifs at hr' with hn
        · rw [← Option.some.inj hr']; exact hr
        · exact h n r' hr'
  | applyPattern road rate =>
    exact ⟨_, rfl, setRate_ratesPositive w road rate h⟩

theorem run_ratesPositive (as : List Action) :
    ∀ (w : World), RatesPositive w → ∃ w', run w as = some w' ∧ RatesPositive w' := by
  induction as with
  | nil => intro w h; exact ⟨w, rfl, h⟩
  | cons a as ih =>
    intro w h
    obtain ⟨w1, h1, hp1⟩ := step_ratesPositive w a h
    obtain ⟨w2, h2, hp2⟩ := ih w1 hp1
    exact ⟨w2, by simp only [run, h1, h2], hp2⟩

theorem initWorld_ratesPositive (names : List String) : RatesPositive (initWorld names) := by
  intro n r h
  rw [initWorld_roads names n r h]
  exact ⟨le_refl _, le_refl _⟩

/-- C17: rates stay at least 1.  From the registry created by `main` over
any list of road names, every finite sequence of entry cycles, exit cycles
and `setRate` calls runs without panic, and in the state it reaches every
registered road has `entryRate >= 1` and `exitRate >= 1`, so that the
delay computation of both workers is defined for every draw. -/
theorem rates_stay_positive (names : List String) (as : List Action) :
    ∃ w, run (initWorld names) as = some w ∧
      ∀ n r, w.roads n = some r →
        1 ≤ r.entryRate ∧ 1 ≤ r.exitRate ∧
        ∀ u : Fin 1000, (workerDelay u r.entryRate r.minDelay).isSome = true ∧
          (workerDelay u r.exitRate r.minDelay).isSome = true := by
  obtain ⟨w, hw, hp⟩ := run_ratesPositive as (initWorld names) (initWorld_ratesPositive names)
  refine ⟨w, hw, fun n r hr => ?_⟩
  obtain ⟨h1, h2⟩ := hp n r hr
  refine ⟨h1, h2, fun u => ⟨?_, ?_⟩⟩
  · exact (workerDelay_isSome u r.entryRate r.minDelay).mpr (by omega)
  · exact (workerDelay_isSome u r.exitRate r.minDelay).mpr (by omega)

/-- Witness of C17: the run of `drainTrace` on the registry of `main`. -/
theorem rates_stay_positive_witness :
    ∃ w, run (initWorld mainRoadNames) drainTrace = some w ∧
      ∀ n r, w.roads n = some r →
        1 ≤ r.entryRate ∧ 1 ≤ r.exitRate ∧
        ∀ u : Fin 1000, (workerDelay u r.entryRate r.minDelay).isSome = true ∧
          (workerDelay u r.exitRate r.minDelay).isSome = true :=
  rates_stay_positive mainRoadNames drainTrace

/-! ## Delay arithmetic -/

theorem wrapInt64_of_range (x : Int) (h1 : -(2 ^ 63) ≤ x) (h2 : x ≤ maxInt64) :
    wrapInt64 x = x := by
  unfold wrapInt64
  unfold maxInt64 at h2
  rw [Int.emod_eq_of_lt (by omega) (by omega)]
  omega

/-- The quotient of a draw by a rate of at least 1. -/
theorem draw_tdiv (u : Fin 1000) (rate : Int) (hr : 1 ≤ rate) :
    Int.tdiv (u.val : Int) rate = (u.val : Int) / rate ∧
      0 ≤ (u.val : Int) / rate ∧ (u.val : Int) / rate ≤ 999 := by
  have hu0 : (0 : Int) ≤ (u.val : Int) := Int.ofNat_nonneg _
  have hu : (u.val : Int) ≤ 999 := by have := u.isLt; omega
  refine ⟨Int.tdiv_eq_ediv hu0 (by omega), Int.ediv_nonneg hu0 (by omega), ?_⟩
  exact le_trans (Int.ediv_le_self rate hu0) hu

/-- The delay the worker sleeps, in nanoseconds, when neither the 64-bit
sum nor the 64-bit product by `time.Millisecond` overflows. -/
theorem workerDelay_of_fits (u : Fin 1000) (rate minDelay : Int) (hr : 1 ≤ rate)
    (h0 : 0 ≤ minDelay) (hmax : (minDelay + 999) * 1000000 ≤ maxInt64) :
    workerDelay u rate minDelay = some (((u.val : Int) / rate + minDelay) * 1000000) := by
  obtain ⟨ht, hq0, hq⟩ := draw_tdiv u rate hr
  have h63 : (0 : Int) ≤ 2 ^ 63 := by decide
  unfold workerDelay
  rw [if_neg (by omega), ht]
  have hsum : wrapInt64 ((u.val : Int) / rate + minDelay) = (u.val : Int) / rate + minDelay := by
    apply wrapInt64_of_range
    · omega
    · unfold maxInt64 at hmax ⊢; omega
  rw [hsum]
  have hprod : wrapInt64 (((u.val : Int) / rate + minDelay) * 1000000) =
      ((u.val : Int) / rate + minDelay) * 1000000 := by
    apply wrapInt64_of_range
    · omega
    · unfold maxInt64 at hmax ⊢; omega
  rw [hprod]

theorem simulateCarEntry_minDelay (r : Road) (m : Metrics) (u : Fin 1000) (ci mi : Fin 5)
    (r' : Road) (m' : Metrics) (d : Int)
    (h : r.simulateCarEntry m u ci mi = some (r', m', d)) : r'.minDelay = r.minDelay := by
  rw [simulateCarEntry_eq] at h
  obtain ⟨delay, _, hres⟩ := Option.map_eq_some'.mp h
  split_ifs at hres <;>
    · simp only [Prod.mk.injEq] at hres
      obtain ⟨rfl, _, _⟩ := hres
      rfl

theorem simulateCarExit_minDelay (r : Road) (m : Metrics) (u : Fin 1000)
    (r' : Road) (m' : Metrics) (d : Int)
    (h : r.simulateCarExit m u = some (r', m', d)) : r'.minDelay = r.minDelay := by
  rw [simulateCarExit_eq] at h
  obtain ⟨delay, _, hres⟩ := Option.map_eq_some'.mp h
  split_ifs at hres <;>
    · simp only [Prod.mk.injEq] at hres
      obtain ⟨rfl, _, _⟩ := hres
      rfl

theorem applyPreset_minDelay (road : Road) (rate : String) :
    (applyPreset road rate).1.minDelay = 500 ∨ (applyPreset road rate).1.minDelay = 100 ∨
      (applyPreset road rate).1.minDelay = 10000 ∨ (applyPreset road rate).1.minDelay = 1000 := by
  unfold applyPreset
  split_ifs <;> simp

theorem setRate_minDelayStored (w : World) (roadName rate : String)
    (h : MinDelayStored w) : MinDelayStored (setRate w roadName rate).1 := by
  cases hw : w.roads roadName with
  | none =>
    have h1 : (setRate w roadName rate).1 = w := by unfold setRate; rw [hw]
    rw [h1]; exact h
  | some road =>
    rw [setRate_of_some w roadName rate road hw]
    intro n r hr
    have hp := applyPreset_minDelay road rate
    by_cases hc : road.currentCars > (applyPreset road rate).2.2
    · rw [if_pos hc] at hr
      simp only [setKey] at hr
      split_ifs at hr with hn
      · rw [← Option.some.inj hr]; exact hp
      · exact h n r hr
    · rw [if_neg hc] at hr
      simp only [setKey] at hr
      split_ifs at hr with hn
      · rw [← Option.some.inj hr]; exact hp
      · exact h n r hr

/-- A step keeps the stored values of `minDelay`. -/
theorem step_minDelayStored (w w' : World) (a : Action) (hs : step w a = some w')
    (h : MinDelayStored w) : MinDelayStored w' := by
  cases a with
  | entry road u ci mi =>
    cases hw : w.roads road with
    | none =>
      simp only [step, hw, Option.some.injEq] at hs
      rw [← hs]; exact h
    | some r =>
      simp only [step, hw] at hs
      cases hc : r.simulateCarEntry w.metrics u ci mi with
      | none => simp [hc] at hs
      | some res =>
        obtain ⟨r1, m1, d⟩ := res
        simp only [hc, Option.some.injEq] at hs
        rw [← hs]
        intro n r' hr'
        simp only [setKey] at hr'
        split_ifs at hr' with hn
        · rw [← Option.some.inj hr', simulateCarEntry_minDelay r _ u ci mi r1 m1 d hc]
          exact h road r hw
        · exact h n r' hr'
  | exit road u =>
    cases hw : w.roads road with
    | none =>
      simp only [step, hw, Option.some.injEq] at hs
      rw [← hs]; exact h
    | some r =>
      simp only [step, hw] at hs
      cases hc : r.simulateCarExit w.metrics u with
      | none => simp [hc] at hs
      | some res =>
        obtain ⟨r1, m1, d⟩ := res
        simp only [hc, Option.some.injEq] at hs
        rw [← hs]
        intro n r' hr'
        simp only [setKey] at hr'
        split_ifs at hr' with hn
        · rw [← Option.some.inj hr', simulateCarExit_minDelay r _ u r1 m1 d hc]
          exact h road r hw
        · exact h n r' hr'
  | applyPattern road rate =>
    simp only [step, Option.some.injEq] at hs
    rw [← hs]
    exact setRate_minDelayStored w road rate h

theorem run_minDelayStored (as : List Action) :
    ∀ (w w' : World), run w as = some w' → MinDelayStored w → MinDelayStored w' := by
  induction as with
  | nil =>
    intro w w' hs h
    simp only [run, Option.some.injEq] at hs
    rw [← hs]; exact h
  | cons a as ih =>
    intro w w' hs h
    simp only [run] at hs
    cases h1 : step w a with
    | none => simp [h1] at hs
    | some w1 =>
      simp only [h1] at hs
      exact ih w1 w' hs (step_minDelayStored w w1 a h1 h)

theorem initWorld_minDelayStored (names : List String) : MinDelayStored (initWorld names) := by
  intro n r h
  rw [initWorld_roads names n r h]
  exact Or.inl rfl

/-- In every state reachable from the registry of `main`, the `minDelay` of
every road is one of the four stored values, far from any overflow. -/
theorem reachable_minDelay_fits (names : List String) (as : List Action) :
    ∃ w, run (initWorld names) as = some w ∧
      ∀ n r, w.roads n = some r →
        0 ≤ r.minDelay ∧ (r.minDelay + 999) * 1000000 ≤ maxInt64 := by
  obtain ⟨w, hw, _⟩ := run_ratesPositive as (initWorld names) (initWorld_ratesPositive names)
  refine ⟨w, hw, fun n r hr => ?_⟩
  have hst := run_minDelayStored as _ w hw (initWorld_minDelayStored names) n r hr
  unfold maxInt64
  rcases hst with h | h | h | h <;> rw [h] <;> decide

/-- What `wrapInt64` yields: the argument up to a multiple of `2^64`, in
the range of `int64`. -/
theorem wrapInt64_spec (x : Int) :
    ∃ c : Int, wrapInt64 x = x - c * 18446744073709551616 ∧
      -9223372036854775808 ≤ wrapInt64 x ∧ wrapInt64 x ≤ 9223372036854775807 := by
  have hpos : (0 : Int) < 18446744073709551616 := by decide
  have h1 := Int.emod_nonneg (x + 9223372036854775808) (ne_of_gt hpos)
  have h2 := Int.emod_lt_of_pos (x + 9223372036854775808) hpos
  have h3 := Int.ediv_add_emod (x + 9223372036854775808) 18446744073709551616
  have hw : wrapInt64 x =
      (x + 9223372036854775808) % 18446744073709551616 - 9223372036854775808 := by
    unfold wrapInt64
    norm_num
  refine ⟨(x + 9223372036854775808) / 18446744073709551616, ?_, ?_, ?_⟩
  · rw [hw]; linarith
  · rw [hw]; linarith
  · rw [hw]; linarith

theorem workerDelay_top (minDelay : Int) :
    workerDelay 999 1 minDelay = some (wrapInt64 (wrapInt64 (999 + minDelay) * 1000000)) := by
  have hq : Int.tdiv ((999 : Fin 1000).val : Int) 1 = 999 := by
    rw [(draw_tdiv 999 1 (le_refl 1)).1, Int.ediv_one]
    rfl
  unfold workerDelay
  rw [if_neg (by decide), hq]

/-- Beyond the bound of the amended claim the delay is wrong for the draw
999 and the rate 1: the bound is the weakest one under which the claim
holds for every draw and rate. -/
theorem delay_bound_is_needed (minDelay : Int)
    (hbig : maxInt64 < (minDelay + 999) * 1000000) :
    ¬ ∃ ms, workerDelay 999 1 minDelay = some (ms * 1000000) ∧ minDelay ≤ ms ∧
      ms ≤ minDelay + 999 := by
  rintro ⟨ms, hd, h1, h2⟩
  rw [workerDelay_top] at hd
  have hd' := Option.some.inj hd
  have hbig' : 9223372036854775807 < (minDelay + 999) * 1000000 := hbig
  obtain ⟨a, ha, _, _⟩ := wrapInt64_spec (999 + minDelay)
  obtain ⟨b, hb, _, hb2⟩ := wrapInt64_spec (wrapInt64 (999 + minDelay) * 1000000)
  rw [hd'] at hb hb2
  rw [ha] at hb
  have hc : (999 + minDelay - ms) * 1000000 = (a * 1000000 + b) * 18446744073709551616 := by
    linarith
  have hlo : 0 ≤ (a * 1000000 + b) * 18446744073709551616 := by
    rw [← hc]; nlinarith
  have hhi : (a * 1000000 + b) * 18446744073709551616 < 1 * 18446744073709551616 := by
    rw [← hc]; nlinarith
  have hc0 : a * 1000000 + b = 0 := by
    have h3 : a * 1000000 + b < 1 := lt_of_mul_lt_mul_right hhi (by decide)
    have h4 : 0 ≤ a * 1000000 + b := by
      by_contra hneg
      push_neg at hneg
      have : (a * 1000000 + b) * 18446744073709551616 < 0 :=
        mul_neg_of_neg_of_pos hneg (by decide)
      linarith
    exact le_antisymm (Int.le_of_lt_add_one (by rw [zero_add]; exact h3)) h4
  rw [hc0] at hc
  linarith

/-- C18 as stated is false: with the draw 0, the rate 1 and
`minDelay = 10^13` milliseconds (a well-formed `int64` that the code never
stores), the product by `time.Millisecond` wraps around and the worker
sleeps `-8446744073709551616` ns, which is below `minDelay`. -/
theorem delay_bounds_overflow :
    ¬ ∀ (u : Fin 1000) (rate minDelay : Int), 1 ≤ rate → 0 ≤ minDelay → minDelay ≤ maxInt64 →
      ∃ ms, workerDelay u rate minDelay = some (ms * 1000000) ∧ minDelay ≤ ms ∧
        ms ≤ minDelay + 999 := by
  intro hall
  obtain ⟨ms, hd, hle, _⟩ := hall 0 1 10000000000000 (by decide) (by decide) (by decide)
  have hval : workerDelay 0 1 10000000000000 = some (-8446744073709551616) := by decide
  rw [hval] at hd
  have := Option.some.inj hd
  omega

/-- C18 amended: for every draw `u` in `[0, 1000)`, every rate of at least
1 and every `minDelay >= 0` for which `minDelay + 999` milliseconds fit in
an `int64` count of nanoseconds, the delay the worker sleeps is
`u / rate + minDelay` milliseconds (integer division), lies between
`minDelay` and `minDelay + 999` milliseconds, and is not increased by a
larger rate; and every `minDelay` of every reachable state satisfies the
condition. -/
theorem delay_bounds (u : Fin 1000) (rate minDelay : Int) (hr : 1 ≤ rate)
    (h0 : 0 ≤ minDelay) (hmax : (minDelay + 999) * 1000000 ≤ maxInt64) :
    (∃ ms, workerDelay u rate minDelay = some (ms * 1000000) ∧
      ms = (u.val : Int) / rate + minDelay ∧ minDelay ≤ ms ∧ ms ≤ minDelay + 999 ∧
      ∀ (rate2 d2 : Int), rate ≤ rate2 → workerDelay u rate2 minDelay = some d2 →
        d2 ≤ ms * 1000000) ∧
    (∀ (names : List String) (as : List Action),
      ∃ w, run (initWorld names) as = some w ∧
        ∀ n r, w.roads n = some r →
          0 ≤ r.minDelay ∧ (r.minDelay + 999) * 1000000 ≤ maxInt64) := by
  obtain ⟨_, hq0, hq⟩ := draw_tdiv u rate hr
  refine ⟨⟨(u.val : Int) / rate + minDelay, workerDelay_of_fits u rate minDelay hr h0 hmax,
    rfl, by omega, by omega, ?_⟩, reachable_minDelay_fits⟩
  intro rate2 d2 hle hd2
  obtain ⟨_, hq20, _⟩ := draw_tdiv u rate2 (by omega)
  rw [workerDelay_of_fits u rate2 minDelay (by omega) h0 hmax] at hd2
  rw [← Option.some.inj hd2]
  have hmono : (u.val : Int) / rate2 ≤ (u.val : Int) / rate := by
    rw [Int.le_ediv_iff_mul_le (by omega)]
    calc (u.val : Int) / rate2 * rate ≤ (u.val : Int) / rate2 * rate2 :=
          Int.mul_le_mul_of_nonneg_left hle hq20
      _ ≤ (u.val : Int) := Int.ediv_mul_le _ (by omega)
  omega

/-- Witness of C18 amended: the draw 999 with the default `minDelay` 500,
rate 3 against larger rates; the worker sleeps 833 ms. -/
theorem delay_bounds_witness :
    (1 : Int) ≤ 3 ∧ (0 : Int) ≤ 500 ∧ ((500 : Int) + 999) * 1000000 ≤ maxInt64 ∧
    ∃ ms, workerDelay 999 3 500 = some (ms * 1000000) ∧
      ms = ((999 : Fin 1000).val : Int) / 3 + 500 ∧ (500 : Int) ≤ ms ∧ ms ≤ 500 + 999 ∧
      ∀ (rate2 d2 : Int), 3 ≤ rate2 → workerDelay 999 rate2 500 = some d2 →
        d2 ≤ ms * 1000000 :=
  ⟨by decide, by decide, by decide,
    (delay_bounds 999 3 500 (by decide) (by decide) (by decide)).1⟩

/-! ## Time-of-day regimes -/

/-- C19: the regime table.  For every hour (in particular `0..23`),
`(baseRate, travelTime)` is `(4, 40)` in the rush hours 7..9 and 16..18,
`(0.5, 10)` in the night hours (23 and later, 4 and earlier) and `(2, 25)`
otherwise; no hour is both rush and night, so the three cases partition
the hours; the rush values are strictly the greatest and the night values
strictly the smallest. -/
theorem regime_table (h : Int) :
    regime h =
      (if isRushHour h then (4, 40) else if isNightHour h then (1 / 2, 10) else (2, 25)) ∧
    ¬ (isRushHour h ∧ isNightHour h) ∧
    (∀ hr hd hn : Int, isRushHour hr → isNightHour hn → ¬ isRushHour hd → ¬ isNightHour hd →
      (regime hn).1 < (regime hd).1 ∧ (regime hd).1 < (regime hr).1 ∧
      (regime hn).2 < (regime hd).2 ∧ (regime hd).2 < (regime hr).2) := by
  have key : ∀ k : Int, regime k =
      (if isRushHour k then (4, 40) else if isNightHour k then (1 / 2, 10) else (2, 25)) := by
    intro k
    unfold regime isRushHour isNightHour rushHourTime emptyRoadTime normalTrafficTime
    by_cases h1 : k ≥ 7 ∧ k ≤ 9
    · rw [if_pos h1, if_pos (Or.inl h1)]; norm_num
    · by_cases h2 : k ≥ 16 ∧ k ≤ 18
      · rw [if_neg h1, if_pos h2, if_pos (Or.inr h2)]; norm_num
      · rw [if_neg h1, if_neg h2, if_neg (not_or.mpr ⟨h1, h2⟩)]
        by_cases h3 : k ≥ 23 ∨ k ≤ 4
        · rw [if_pos h3, if_pos h3]; norm_num
        · rw [if_neg h3, if_neg h3]; norm_num
  refine ⟨key h, ?_, ?_⟩
  · unfold isRushHour isNightHour
    omega
  · intro hr hd hn h1 h2 h3 h4
    rw [key hr, key hd, key hn]
    have h5 : ¬ isRushHour hn := by
      unfold isRushHour isNightHour at *
      omega
    rw [if_pos h1, if_neg h3, if_neg h4, if_neg h5, if_pos h2]
    norm_num

/-- Witness of C19: the hours 8 (rush), 12 (normal) and 2 (night). -/
theorem regime_table_witness :
    (regime 2).1 < (regime 12).1 ∧ (regime 12).1 < (regime 8).1 ∧
      (regime 2).2 < (regime 12).2 ∧ (regime 12).2 < (regime 8).2 :=
  (regime_table 0).2.2 8 12 2 (by decide) (by decide) (by decide) (by decide)

/-! ## The loops of the backfill in closed form -/

theorem sumKey_nil (key : String) : sumKey key [] = 0 := rfl

theorem sumKey_cons (key : String) (e : RecentEntry) (l : List RecentEntry) :
    sumKey key (e :: l) =
      (if cohortKey e.color e.maker = key then e.count else 0) + sumKey key l := by
  unfold sumKey
  by_cases h : cohortKey e.color e.maker = key <;> simp [List.filter_cons, h]

theorem sumKey_append (key : String) (l1 l2 : List RecentEntry) :
    sumKey key (l1 ++ l2) = sumKey key l1 + sumKey key l2 := by
  unfold sumKey
  simp [List.filter_append]

/-- The nested loops over `colors` and `makers` are one loop over
`cohortPairs`. -/
theorem nested_loops_eq {α : Type} (g : String → α → String → α) (a : α) :
    colors.foldl (fun a color => makers.foldl (g color) a) a =
      cohortPairs.foldl (fun a p => g p.1 a p.2) a := rfl

/-- The loop over kept entries in closed form. -/
theorem keepEntry_foldl (cutoff : Time) (l : List RecentEntry) :
    ∀ (f : String → ℚ) (acc : List RecentEntry),
      l.foldl (keepEntry cutoff) (f, acc) =
        (fun key => f key + sumKey key (l.filter (fun e => Time.After e.time cutoff)),
          acc ++ l.filter (fun e => Time.After e.time cutoff)) := by
  induction l with
  | nil => intro f acc; simp [sumKey_nil]
  | cons e l ih =>
    intro f acc
    rw [List.foldl_cons]
    by_cases h : Time.After e.time cutoff = true
    · have hk : keepEntry cutoff (f, acc) e =
          (setKey f (cohortKey e.color e.maker) (f (cohortKey e.color e.maker) + e.count),
            acc ++ [e]) := by
        simp [keepEntry, h]
      have hf : List.filter (fun e => Time.After e.time cutoff) (e :: l) =
          e :: List.filter (fun e => Time.After e.time cutoff) l := by
        simp [List.filter_cons, h]
      rw [hk, ih, hf]
      refine Prod.ext ?_ (by simp)
      funext key
      simp only [sumKey_cons, setKey]
      by_cases hkey : key = cohortKey e.color e.maker
      · subst hkey; simp; ring
      · have hkey' : ¬ cohortKey e.color e.maker = key := fun h' => hkey h'.symm
        simp [hkey, hkey']
    · have hk : keepEntry cutoff (f, acc) e = (f, acc) := by
        simp [keepEntry, h]
      have hf : List.filter (fun e => Time.After e.time cutoff) (e :: l) =
          List.filter (fun e => Time.After e.time cutoff) l := by
        simp [List.filter_cons, h]
      rw [hk, ih, hf]

theorem generateEntry_fst (rnd : Nat → ℚ) (t : Time) (road : String) (base : ℚ)
    (st : BackfillState) (rd : RoadData) (p : String × String) :
    (generateEntry rnd t road base p.1 (st, rd) p.2).1 =
      { totals := setKey st.totals (cohortKey p.1 p.2)
          (st.totals (cohortKey p.1 p.2) + base * (0.5 + rnd st.drawn))
        currentCars := setKey st.currentCars road
          (setKey (st.currentCars road) (cohortKey p.1 p.2)
            (st.currentCars road (cohortKey p.1 p.2) + base * (0.5 + rnd st.drawn)))
        recentEntries := setKey st.recentEntries road
          (st.recentEntries road ++
            [{ time := t, color := p.1, maker := p.2, count := base * (0.5 + rnd st.drawn) }])
        drawn := st.drawn + 1 } := rfl

theorem generateEntry_snd (rnd : Nat → ℚ) (t : Time) (road : String) (base : ℚ)
    (st : BackfillState) (rd : RoadData) (p : String × String) :
    (generateEntry rnd t road base p.1 (st, rd) p.2).2 =
      { cars := setKey rd.cars (cohortKey p.1 p.2)
          (st.currentCars road (cohortKey p.1 p.2) + base * (0.5 + rnd st.drawn))
        totals := setKey rd.totals (cohortKey p.1 p.2)
          (st.totals (cohortKey p.1 p.2) + base * (0.5 + rnd st.drawn)) } := rfl

/-- The state after the arrival loops over the pairs `ps`. -/
theorem arrivals_fold_state (rnd : Nat → ℚ) (t : Time) (road : String) (base : ℚ)
    (ps : List (String × String)) :
    ∀ (st : BackfillState) (rd : RoadData),
      (ps.foldl (fun a p => generateEntry rnd t road base p.1 a p.2) (st, rd)).1 =
        { totals := fun key => st.totals key + sumKey key (arrivalsOf rnd t base ps st.drawn)
          currentCars := fun r key =>
            if r = road then
              st.currentCars road key + sumKey key (arrivalsOf rnd t base ps st.drawn)
            else st.currentCars r key
          recentEntries := fun r =>
            if r = road then st.recentEntries road ++ arrivalsOf rnd t base ps st.drawn
            else st.recentEntries r
          drawn := st.drawn + ps.length } := by
  induction ps with
  | nil =>
    intro st rd
    rcases st with ⟨tot, cc, re, dr⟩
    simp only [List.foldl_nil, arrivalsOf, sumKey_nil, add_zero, List.append_nil,
      List.length_nil, BackfillState.mk.injEq, true_and, and_true]
    constructor
    · funext r key; split_ifs with h
      · rw [h]
      · rfl
    · funext r; split_ifs with h
      · rw [h]
      · rfl
  | cons p ps ih =>
    intro st rd
    rw [List.foldl_cons]
    have hsplit : generateEntry rnd t road base p.1 (st, rd) p.2 =
        ((generateEntry rnd t road base p.1 (st, rd) p.2).1,
          (generateEntry rnd t road base p.1 (st, rd) p.2).2) := rfl
    rw [hsplit, ih, generateEntry_fst]
    simp only [arrivalsOf, sumKey_cons, List.length_cons, BackfillState.mk.injEq]
    refine ⟨?_, ?_, ?_, by omega⟩
    · funext key
      simp only [setKey]
      by_cases hk : key = cohortKey p.1 p.2
      · subst hk; simp; ring
      · have hk' : ¬ cohortKey p.1 p.2 = key := fun h => hk h.symm
        simp [hk, hk']
    · funext r key
      simp only [setKey]
      by_cases hr : r = road
      · by_cases hk : key = cohortKey p.1 p.2
        · subst hk; simp [hr, setKey]; ring
        · have hk' : ¬ cohortKey p.1 p.2 = key := fun h => hk h.symm
          simp [hr, hk, hk', setKey]
      · simp [hr]
    · funext r
      simp only [setKey]
      by_cases hr : r = road
      · simp [hr]
      · simp [hr]

theorem sumKey_nonneg (key : String) (l : List RecentEntry)
    (h : ∀ e ∈ l, 0 ≤ e.count) : 0 ≤ sumKey key l := by
  induction l with
  | nil => simp [sumKey_nil]
  | cons e l ih =>
    rw [sumKey_cons]
    have h1 := h e (List.mem_cons_self e l)
    have h2 := ih (fun e' he' => h e' (List.mem_cons_of_mem e he'))
    split_ifs <;> linarith

theorem sumKey_eq_zero (key : String) (l : List RecentEntry)
    (h : ∀ e ∈ l, cohortKey e.color e.maker ≠ key) : sumKey key l = 0 := by
  induction l with
  | nil => simp [sumKey_nil]
  | cons e l ih =>
    rw [sumKey_cons, if_neg (h e (List.mem_cons_self e l)),
      ih (fun e' he' => h e' (List.mem_cons_of_mem e he'))]
    simp

/-- The records created by the arrival loops: time, cohort and count. -/
theorem mem_arrivalsOf (rnd : Nat → ℚ) (t : Time) (base : ℚ) (ps : List (String × String)) :
    ∀ (d : Nat) (e : RecentEntry), e ∈ arrivalsOf rnd t base ps d →
      e.time = t ∧ (e.color, e.maker) ∈ ps ∧
        ∃ i, d ≤ i ∧ i < d + ps.length ∧ e.count = base * (0.5 + rnd i) := by
  induction ps with
  | nil => intro d e h; simp [arrivalsOf] at h
  | cons p ps ih =>
    intro d e h
    simp only [arrivalsOf, List.mem_cons] at h
    rcases h with h | h
    · subst h
      exact ⟨rfl, List.mem_cons_self _ _, d, le_refl d, by simp, rfl⟩
    · obtain ⟨h1, h2, i, h3, h4, h5⟩ := ih (d + 1) e h
      exact ⟨h1, List.mem_cons_of_mem _ h2, i, by omega, by simp only [List.length_cons]; omega, h5⟩

/-- The cars written into `dp.roadData[roadName]` by the arrival loops. -/
theorem arrivals_fold_cars (rnd : Nat → ℚ) (t : Time) (road : String) (base : ℚ)
    (ps : List (String × String)) :
    ∀ (st : BackfillState) (rd : RoadData) (key : String),
      ((∃ p ∈ ps, cohortKey p.1 p.2 = key) →
        (ps.foldl (fun a p => generateEntry rnd t road base p.1 a p.2) (st, rd)).2.cars key =
          (ps.foldl (fun a p => generateEntry rnd t road base p.1 a p.2) (st, rd)).1.currentCars
            road key) ∧
      ((¬ ∃ p ∈ ps, cohortKey p.1 p.2 = key) →
        (ps.foldl (fun a p => generateEntry rnd t road base p.1 a p.2) (st, rd)).2.cars key =
          rd.cars key) := by
  induction ps with
  | nil =>
    intro st rd key
    exact ⟨fun h => by simp at h, fun _ => rfl⟩
  | cons p ps ih =>
    intro st rd key
    rw [List.foldl_cons]
    have hsplit : generateEntry rnd t road base p.1 (st, rd) p.2 =
        ((generateEntry rnd t road base p.1 (st, rd) p.2).1,
          (generateEntry rnd t road base p.1 (st, rd) p.2).2) := rfl
    rw [hsplit]
    obtain ⟨ih1, ih2⟩ := ih (generateEntry rnd t road base p.1 (st, rd) p.2).1
      (generateEntry rnd t road base p.1 (st, rd) p.2).2 key
    by_cases hin : ∃ q ∈ ps, cohortKey q.1 q.2 = key
    · refine ⟨fun _ => ih1 hin, fun hnot => absurd ?_ hnot⟩
      obtain ⟨q, hq, hqk⟩ := hin
      exact ⟨q, List.mem_cons_of_mem _ hq, hqk⟩
    · by_cases hp : cohortKey p.1 p.2 = key
      · refine ⟨fun _ => ?_, fun hnot => absurd ⟨p, List.mem_cons_self _ _, hp⟩ hnot⟩
        rw [ih2 hin, arrivals_fold_state, generateEntry_snd, generateEntry_fst]
        have hz : sumKey key (arrivalsOf rnd t base ps (st.drawn + 1)) = 0 := by
          apply sumKey_eq_zero
          intro e he hek
          obtain ⟨_, hmem, _⟩ := mem_arrivalsOf rnd t base ps _ e he
          exact hin ⟨(e.color, e.maker), hmem, hek⟩
        simp [setKey, hp, hz]
      · refine ⟨fun hex => ?_, fun _ => ?_⟩
        · obtain ⟨q, hq, hqk⟩ := hex
          rcases List.mem_cons.mp hq with h | h
          · rw [h] at hqk; exact absurd hqk hp
          · exact absurd ⟨q, h, hqk⟩ hin
        · rw [ih2 hin, generateEntry_snd]
          have hp' : ¬ key = cohortKey p.1 p.2 := fun h => hp h.symm
          simp [setKey, hp']

theorem arrivals_fold_totals_other (rnd : Nat → ℚ) (t : Time) (road : String) (base : ℚ)
    (ps : List (String × String)) :
    ∀ (st : BackfillState) (rd : RoadData) (key : String),
      (¬ ∃ p ∈ ps, cohortKey p.1 p.2 = key) →
        (ps.foldl (fun a p => generateEntry rnd t road base p.1 a p.2) (st, rd)).2.totals key =
          rd.totals key := by
  induction ps with
  | nil => intro st rd key _; rfl
  | cons p ps ih =>
    intro st rd key hnot
    rw [List.foldl_cons]
    have hsplit : generateEntry rnd t road base p.1 (st, rd) p.2 =
        ((generateEntry rnd t road base p.1 (st, rd) p.2).1,
          (generateEntry rnd t road base p.1 (st, rd) p.2).2) := rfl
    rw [hsplit, ih _ _ key (fun ⟨q, hq, hqk⟩ => hnot ⟨q, List.mem_cons_of_mem _ hq, hqk⟩),
      generateEntry_snd]
    have hp' : ¬ key = cohortKey p.1 p.2 :=
      fun h => hnot ⟨p, List.mem_cons_self _ _, h.symm⟩
    simp [setKey, hp']

/-- The total written into `dp.roadData[roadName]` for a cohort lies
between the shared total before the arrival loops and the shared total
after them, when no arrival is negative. -/
theorem arrivals_fold_totals (rnd : Nat → ℚ) (t : Time) (road : String) (base : ℚ)
    (hnn : ∀ i, 0 ≤ base * (0.5 + rnd i)) (ps : List (String × String)) :
    ∀ (st : BackfillState) (rd : RoadData) (key : String),
      (∃ p ∈ ps, cohortKey p.1 p.2 = key) →
        st.totals key ≤
          (ps.foldl (fun a p => generateEntry rnd t road base p.1 a p.2) (st, rd)).2.totals key ∧
        (ps.foldl (fun a p => generateEntry rnd t road base p.1 a p.2) (st, rd)).2.totals key ≤
          (ps.foldl (fun a p => generateEntry rnd t road base p.1 a p.2) (st, rd)).1.totals key := by
  induction ps with
  | nil => intro st rd key h; simp at h
  | cons p ps ih =>
    intro st rd key hex
    rw [List.foldl_cons]
    have hsplit : generateEntry rnd t road base p.1 (st, rd) p.2 =
        ((generateEntry rnd t road base p.1 (st, rd) p.2).1,
          (generateEntry rnd t road base p.1 (st, rd) p.2).2) := rfl
    rw [hsplit]
    have hstep : st.totals key ≤ (generateEntry rnd t road base p.1 (st, rd) p.2).1.totals key := by
      rw [generateEntry_fst]
      simp only [setKey]
      split_ifs with hk
      · rw [hk]; linarith [hnn st.drawn]
      · exact le_refl _
    by_cases hin : ∃ q ∈ ps, cohortKey q.1 q.2 = key
    · obtain ⟨h1, h2⟩ := ih (generateEntry rnd t road base p.1 (st, rd) p.2).1
        (generateEntry rnd t road base p.1 (st, rd) p.2).2 key hin
      exact ⟨le_trans hstep h1, h2⟩
    · have hp : cohortKey p.1 p.2 = key := by
        obtain ⟨q, hq, hqk⟩ := hex
        rcases List.mem_cons.mp hq with h | h
        · rw [← h]; exact hqk
        · exact absurd ⟨q, h, hqk⟩ hin
      rw [arrivals_fold_totals_other _ _ _ _ _ _ _ key hin, arrivals_fold_state,
        generateEntry_snd, generateEntry_fst]
      have hz : sumKey key (arrivalsOf rnd t base ps (st.drawn + 1)) = 0 := by
        apply sumKey_eq_zero
        intro e he hek
        obtain ⟨_, hmem, _⟩ := mem_arrivalsOf rnd t base ps _ e he
        exact hin ⟨(e.color, e.maker), hmem, hek⟩
      simp only [setKey, hp, if_true, hz, add_zero]
      exact ⟨by linarith [hnn st.drawn], le_refl _⟩

/-- The turn of one road: the keep loop, then the arrival loops. -/
theorem processRoad_eq (rnd : Nat → ℚ) (t : Time)
    (acc : BackfillState × (String → Option RoadData)) (road : String) :
    processRoad rnd t acc road =
      ((arrivalLoops rnd t road (afterKeep t acc.1 road)).1,
        setKey acc.2 road (some (arrivalLoops rnd t road (afterKeep t acc.1 road)).2)) := by
  unfold processRoad
  simp only []
  rw [nested_loops_eq (fun color => generateEntry rnd t road (regime (Time.Hour t)).1 color),
    keepEntry_foldl]
  simp only [arrivalLoops, afterKeep, keptAt, zero_add, List.nil_append]

/-- The state left by the turn of one road at timestamp `t`. -/
theorem processRoad_state (rnd : Nat → ℚ) (t : Time)
    (acc : BackfillState × (String → Option RoadData)) (road : String) :
    (processRoad rnd t acc road).1 =
      { totals := fun key => acc.1.totals key + sumKey key (arrivalsFrom rnd t acc.1.drawn)
        currentCars := fun r key =>
          if r = road then
            sumKey key (keptAt t (acc.1.recentEntries road)) +
              sumKey key (arrivalsFrom rnd t acc.1.drawn)
          else acc.1.currentCars r key
        recentEntries := fun r =>
          if r = road then keptAt t (acc.1.recentEntries road) ++ arrivalsFrom rnd t acc.1.drawn
          else acc.1.recentEntries r
        drawn := acc.1.drawn + 25 } := by
  rw [processRoad_eq]
  simp only [arrivalLoops]
  rw [arrivals_fold_state]
  simp only [afterKeep, arrivalsFrom, BackfillState.mk.injEq, true_and]
  refine ⟨?_, ?_, rfl⟩
  · funext r key
    by_cases hr : r = road <;> simp [hr, setKey]
  · funext r
    by_cases hr : r = road <;> simp [hr, setKey]

theorem processRoad_snd_other (rnd : Nat → ℚ) (t : Time)
    (acc : BackfillState × (String → Option RoadData)) (road r : String) (h : r ≠ road) :
    (processRoad rnd t acc road).2 r = acc.2 r := by
  rw [processRoad_eq]
  simp [setKey, h]

/-- The road data written by the turn of one road at timestamp `t`: the
cars of a cohort are the sum of the counts of the retained records of the
cohort, and its total lies between the shared totals before and after the
turn when no arrival is negative. -/
theorem processRoad_snd_self (rnd : Nat → ℚ) (t : Time)
    (acc : BackfillState × (String → Option RoadData)) (road : String) :
    ∃ rd, (processRoad rnd t acc road).2 road = some rd ∧
      (∀ p ∈ cohortPairs, rd.cars (cohortKey p.1 p.2) =
        sumKey (cohortKey p.1 p.2) ((processRoad rnd t acc road).1.recentEntries road)) ∧
      ((∀ i, 0 ≤ (regime (Time.Hour t)).1 * (0.5 + rnd i)) →
        ∀ p ∈ cohortPairs, acc.1.totals (cohortKey p.1 p.2) ≤ rd.totals (cohortKey p.1 p.2) ∧
          rd.totals (cohortKey p.1 p.2) ≤
            (processRoad rnd t acc road).1.totals (cohortKey p.1 p.2)) := by
  have hst := processRoad_state rnd t acc road
  rw [processRoad_eq] at hst ⊢
  refine ⟨_, setKey_same _ _ _, ?_, ?_⟩
  · intro p hp
    have hc := (arrivals_fold_cars rnd t road (regime (Time.Hour t)).1 cohortPairs
      (afterKeep t acc.1 road) { cars := fun _ => 0, totals := fun _ => 0 }
      (cohortKey p.1 p.2)).1 ⟨p, hp, rfl⟩
    have hc' : (arrivalLoops rnd t road (afterKeep t acc.1 road)).2.cars (cohortKey p.1 p.2) =
        (arrivalLoops rnd t road (afterKeep t acc.1 road)).1.currentCars road
          (cohortKey p.1 p.2) := hc
    simp only [] at hst
    rw [hc', hst]
    simp [sumKey_append]
  · intro hnn p hp
    have hb := arrivals_fold_totals rnd t road (regime (Time.Hour t)).1 hnn cohortPairs
      (afterKeep t acc.1 road) { cars := fun _ => 0, totals := fun _ => 0 }
      (cohortKey p.1 p.2) ⟨p, hp, rfl⟩
    exact hb

/-! ## One timestamp: the loop over the roads -/

theorem processRoad_drawn (rnd : Nat → ℚ) (t : Time)
    (acc : BackfillState × (String → Option RoadData)) (road : String) :
    (processRoad rnd t acc road).1.drawn = acc.1.drawn + 25 := by
  rw [processRoad_state]

theorem processRoad_recent_other (rnd : Nat → ℚ) (t : Time)
    (acc : BackfillState × (String → Option RoadData)) (road r : String) (h : r ≠ road) :
    (processRoad rnd t acc road).1.recentEntries r = acc.1.recentEntries r := by
  rw [processRoad_state]
  simp [h]

theorem processRoad_recent_self (rnd : Nat → ℚ) (t : Time)
    (acc : BackfillState × (String → Option RoadData)) (road : String) :
    (processRoad rnd t acc road).1.recentEntries road =
      keptAt t (acc.1.recentEntries road) ++ arrivalsFrom rnd t acc.1.drawn := by
  rw [processRoad_state]
  simp

theorem arrivalsFrom_nonneg (rnd : Nat → ℚ) (t : Time) (d : Nat)
    (hnn : ∀ i, 0 ≤ (regime (Time.Hour t)).1 * (0.5 + rnd i)) :
    ∀ e ∈ arrivalsFrom rnd t d, 0 ≤ e.count := by
  intro e he
  obtain ⟨_, _, i, _, _, hc⟩ := mem_arrivalsOf rnd t _ cohortPairs d e he
  rw [hc]
  exact hnn i

theorem processRoad_totals_le (rnd : Nat → ℚ) (t : Time)
    (hnn : ∀ i, 0 ≤ (regime (Time.Hour t)).1 * (0.5 + rnd i))
    (acc : BackfillState × (String → Option RoadData)) (road key : String) :
    acc.1.totals key ≤ (processRoad rnd t acc road).1.totals key := by
  rw [processRoad_state]
  have := sumKey_nonneg key _ (arrivalsFrom_nonneg rnd t acc.1.drawn hnn)
  simp only []
  linarith

theorem roads_fold_drawn (rnd : Nat → ℚ) (t : Time) (names : List String) :
    ∀ (acc : BackfillState × (String → Option RoadData)),
      (names.foldl (processRoad rnd t) acc).1.drawn = acc.1.drawn + 25 * names.length := by
  induction names with
  | nil => intro acc; simp
  | cons n names ih =>
    intro acc
    rw [List.foldl_cons, ih, processRoad_drawn, List.length_cons]
    ring

theorem roads_fold_other (rnd : Nat → ℚ) (t : Time) (road : String) (names : List String) :
    ∀ (acc : BackfillState × (String → Option RoadData)), road ∉ names →
      (names.foldl (processRoad rnd t) acc).1.recentEntries road = acc.1.recentEntries road ∧
      (names.foldl (processRoad rnd t) acc).2 road = acc.2 road := by
  induction names with
  | nil => intro acc _; exact ⟨rfl, rfl⟩
  | cons n names ih =>
    intro acc hnot
    have hne : road ≠ n := fun h => hnot (h ▸ List.mem_cons_self _ _)
    have hrest : road ∉ names := fun h => hnot (List.mem_cons_of_mem _ h)
    rw [List.foldl_cons]
    obtain ⟨h1, h2⟩ := ih (processRoad rnd t acc n) hrest
    rw [h1, h2, processRoad_recent_other _ _ _ _ _ hne, processRoad_snd_other _ _ _ _ _ hne]
    exact ⟨rfl, rfl⟩

theorem roads_fold_totals_le (rnd : Nat → ℚ) (t : Time)
    (hnn : ∀ i, 0 ≤ (regime (Time.Hour t)).1 * (0.5 + rnd i)) (key : String)
    (names : List String) :
    ∀ (acc : BackfillState × (String → Option RoadData)),
      acc.1.totals key ≤ (names.foldl (processRoad rnd t) acc).1.totals key := by
  induction names with
  | nil => intro acc; exact le_refl _
  | cons n names ih =>
    intro acc
    rw [List.foldl_cons]
    exact le_trans (processRoad_totals_le rnd t hnn acc n key) (ih _)

/-- After the loop over the roads at timestamp `t`, a road enumerated once
retains the records that pass the cutoff followed by its 25 arrivals, drawn
after the turns of the roads enumerated before it; and the cars written
for it are, per cohort, the sum of the counts of the retained records. -/
theorem roads_fold_self (rnd : Nat → ℚ) (t : Time) (road : String) (names : List String) :
    ∀ (acc : BackfillState × (String → Option RoadData)), names.Nodup → road ∈ names →
      (names.foldl (processRoad rnd t) acc).1.recentEntries road =
        keptAt t (acc.1.recentEntries road) ++
          arrivalsFrom rnd t (acc.1.drawn + 25 * names.indexOf road) ∧
      ∃ rd, (names.foldl (processRoad rnd t) acc).2 road = some rd ∧
        ∀ p ∈ cohortPairs, rd.cars (cohortKey p.1 p.2) =
          sumKey (cohortKey p.1 p.2)
            ((names.foldl (processRoad rnd t) acc).1.recentEntries road) := by
  induction names with
  | nil => intro acc _ h; simp at h
  | cons n names ih =>
    intro acc hnd hmem
    rw [List.foldl_cons]
    have hnd' := List.nodup_cons.mp hnd
    by_cases hn : road = n
    · subst hn
      obtain ⟨h1, h2⟩ := roads_fold_other rnd t road names (processRoad rnd t acc road) hnd'.1
      obtain ⟨rd, hrd, hcars, _⟩ := processRoad_snd_self rnd t acc road
      rw [h1, h2]
      refine ⟨?_, rd, hrd, hcars⟩
      rw [processRoad_recent_self, List.indexOf_cons_self]
      simp
    · have hrest : road ∈ names := by
        rcases List.mem_cons.mp hmem with h | h
        · exact absurd h hn
        · exact h
      obtain ⟨h1, h2⟩ := ih (processRoad rnd t acc n) hnd'.2 hrest
      refine ⟨?_, h2⟩
      rw [h1, processRoad_recent_other _ _ _ _ _ hn, processRoad_drawn,
        List.indexOf_cons_ne _ (fun h => hn h.symm)]
      congr 2
      omega

/-- After the loop over the roads at timestamp `t`, the total written for
a cohort of an enumerated road lies between the shared total before the
loop and the shared total after it, when no arrival is negative. -/
theorem roads_fold_totals (rnd : Nat → ℚ) (t : Time)
    (hnn : ∀ i, 0 ≤ (regime (Time.Hour t)).1 * (0.5 + rnd i)) (road : String)
    (names : List String) :
    ∀ (acc : BackfillState × (String → Option RoadData)), road ∈ names →
      ∃ rd, (names.foldl (processRoad rnd t) acc).2 road = some rd ∧
        ∀ p ∈ cohortPairs, acc.1.totals (cohortKey p.1 p.2) ≤ rd.totals (cohortKey p.1 p.2) ∧
          rd.totals (cohortKey p.1 p.2) ≤
            (names.foldl (processRoad rnd t) acc).1.totals (cohortKey p.1 p.2) := by
  induction names with
  | nil => intro acc h; simp at h
  | cons n names ih =>
    intro acc hmem
    rw [List.foldl_cons]
    by_cases hrest : road ∈ names
    · obtain ⟨rd, hrd, hb⟩ := ih (processRoad rnd t acc n) hrest
      refine ⟨rd, hrd, fun p hp => ⟨?_, (hb p hp).2⟩⟩
      exact le_trans (processRoad_totals_le rnd t hnn acc n _) (hb p hp).1
    · have hn : road = n := by
        rcases List.mem_cons.mp hmem with h | h
        · exact h
        · exact absurd h hrest
      subst hn
      obtain ⟨_, h2⟩ := roads_fold_other rnd t road names (processRoad rnd t acc road) hrest
      obtain ⟨rd, hrd, _, htot⟩ := processRoad_snd_self rnd t acc road
      refine ⟨rd, by rw [h2]; exact hrd, fun p hp => ⟨(htot hnn p hp).1, ?_⟩⟩
      exact le_trans (htot hnn p hp).2 (roads_fold_totals_le rnd t hnn _ names _)

/-! ## The loop over the timestamps -/

theorem stateAfter_append (rnd : Nat → ℚ) (order : Nat → List String) (t : Time)
    (ts : List Time) :
    ∀ (i : Nat) (st : BackfillState),
      stateAfter rnd order (ts ++ [t]) i st =
        (backfillStep rnd (order (i + ts.length)) t (stateAfter rnd order ts i st)).1 := by
  induction ts with
  | nil => intro i st; simp [stateAfter]
  | cons u ts ih =>
    intro i st
    rw [List.cons_append, stateAfter, stateAfter, ih, List.length_cons]
    have hi : i + 1 + ts.length = i + (ts.length + 1) := by omega
    rw [hi]

theorem backfillLoop_fst (rnd : Nat → ℚ) (order : Nat → List String) (ts : List Time) :
    ∀ (i : Nat) (st : BackfillState) (dps : List DataPoint),
      (backfillLoop rnd order ts i st dps).1 = stateAfter rnd order ts i st := by
  induction ts with
  | nil => intro i st dps; rfl
  | cons u ts ih =>
    intro i st dps
    simp only [backfillLoop, stateAfter]
    rw [ih]
    rfl

theorem backfillLoop_append (rnd : Nat → ℚ) (order : Nat → List String) (t : Time)
    (ts : List Time) :
    ∀ (i : Nat) (st : BackfillState) (dps : List DataPoint),
      (backfillLoop rnd order (ts ++ [t]) i st dps).2 =
        (backfillLoop rnd order ts i st dps).2 ++
          [{ timestamp := Time.UnixMilli t
             roadData := (backfillStep rnd (order (i + ts.length)) t
               (stateAfter rnd order ts i st)).2 }] := by
  induction ts with
  | nil => intro i st dps; simp [backfillLoop, stateAfter, backfillStep]
  | cons u ts ih =>
    intro i st dps
    rw [List.cons_append, backfillLoop, backfillLoop, stateAfter, ih, List.length_cons]
    have hi : i + 1 + ts.length = i + (ts.length + 1) := by omega
    rw [hi]
    rfl

theorem stateAt_succ (rnd : Nat → ℚ) (order : Nat → List String) (now : Time) (k : Nat) :
    stateAt rnd order now (k + 1) =
      (backfillStep rnd (order k) (sampleTime now k) (stateAt rnd order now k)).1 := by
  unfold stateAt
  rw [List.range_succ, List.map_append, List.map_singleton, stateAfter_append]
  simp

/-- The data points of the first `n` samples. -/
theorem backfillLoop_samples (rnd : Nat → ℚ) (order : Nat → List String) (now : Time)
    (n : Nat) :
    (backfillLoop rnd order ((List.range n).map (sampleTime now)) 0 BackfillState.init []).2 =
      (List.range n).map (dataPointAt rnd order now) := by
  induction n with
  | zero => rfl
  | succ n ih =>
    rw [List.range_succ, List.map_append, List.map_singleton, backfillLoop_append, ih,
      List.map_append, List.map_singleton]
    simp [dataPointAt, stateAt]

/-- The backfill ends and yields the data points of the 11 samples. -/
theorem backfillDataPoints_eq (rnd : Nat → ℚ) (order : Nat → List String) (now : Time) :
    backfillDataPoints rnd order now = some ((List.range 11).map (dataPointAt rnd order now)) := by
  unfold backfillDataPoints
  rw [backfillTimestamps_eq]
  simp only [Option.map_some']
  have h : (List.range 11).map (fun (k : Nat) => backfillStartTime now + (k : Int) * (5 * minute))
      = (List.range 11).map (sampleTime now) := rfl
  rw [h, backfillLoop_samples]

/-! ## The samples of a reconstruction -/

theorem stateAt_zero (rnd : Nat → ℚ) (order : Nat → List String) (now : Time) :
    stateAt rnd order now 0 = BackfillState.init := rfl

theorem stateAt_drawn (rnd : Nat → ℚ) (order : Nat → List String) (now : Time) (k : Nat) :
    (stateAt rnd order now k).drawn =
      25 * ((List.range k).map (fun i => (order i).length)).sum := by
  induction k with
  | zero => rfl
  | succ k ih =>
    rw [stateAt_succ, backfillStep, roads_fold_drawn, ih, List.range_succ, List.map_append,
      List.sum_append]
    simp
    ring

/-- The records retained for a road after a sample: those retained before
that pass the cutoff of the sample, then the arrivals of the sample. -/
theorem retainedAfter_eq (rnd : Nat → ℚ) (order : Nat → List String) (now : Time) (k : Nat)
    (road : String) (hnd : (order k).Nodup) (hmem : road ∈ order k) :
    retainedAfter rnd order now k road =
      keptAt (sampleTime now k) ((stateAt rnd order now k).recentEntries road) ++
        arrivalsAt rnd order now k road := by
  unfold retainedAfter arrivalsAt drawsBefore
  rw [stateAt_succ, backfillStep,
    (roads_fold_self rnd (sampleTime now k) road (order k) _ hnd hmem).1, stateAt_drawn]

/-- The occupancy emitted for a cohort at a sample is the sum of the counts
of the records of the cohort retained after the sample. -/
theorem dataPointAt_cars (rnd : Nat → ℚ) (order : Nat → List String) (now : Time) (k : Nat)
    (road color maker : String) (hnd : (order k).Nodup) (hmem : road ∈ order k)
    (hc : color ∈ colors) (hm : maker ∈ makers) :
    (dataPointAt rnd order now k).cars road color maker =
      some (sumKey (cohortKey color maker) (retainedAfter rnd order now k road)) := by
  obtain ⟨rd, hrd, hcars⟩ :=
    (roads_fold_self rnd (sampleTime now k) road (order k)
      (stateAt rnd order now k, fun _ => none) hnd hmem).2
  have hp : (color, maker) ∈ cohortPairs := by
    unfold cohortPairs
    exact List.mem_product.mpr ⟨hc, hm⟩
  have h := hcars (color, maker) hp
  unfold DataPoint.cars dataPointAt retainedAfter
  rw [stateAt_succ]
  unfold backfillStep
  simp only []
  rw [hrd, Option.map_some']
  exact congrArg some h

theorem regime_cases (h : Int) :
    regime h = (4, 40) ∨ regime h = (1 / 2, 10) ∨ regime h = (2, 25) := by
  unfold regime rushHourTime emptyRoadTime normalTrafficTime
  split_ifs
  · left; norm_num
  · left; norm_num
  · right; left; norm_num
  · right; right; norm_num

theorem regime_base_pos (h : Int) : 0 < (regime h).1 := by
  rcases regime_cases h with h1 | h1 | h1 <;> rw [h1] <;> norm_num

/-- The travel span is 40, 10 or 25 minutes. -/
theorem travelSpan_cases (t : Time) :
    travelSpan t = 40 * minute ∨ travelSpan t = 10 * minute ∨ travelSpan t = 25 * minute := by
  unfold travelSpan truncToInt
  rcases regime_cases (Time.Hour t) with h1 | h1 | h1 <;> rw [h1]
  · left; norm_num
  · right; left; norm_num
  · right; right; norm_num

theorem travelSpan_pos (t : Time) : 0 < travelSpan t := by
  have hm : (0 : Int) < minute := by decide
  rcases travelSpan_cases t with h | h | h <;> rw [h] <;> omega

theorem arrival_nonneg (rnd : Nat → ℚ) (hr : ∀ i, 0 ≤ rnd i ∧ rnd i < 1) (t : Time) :
    ∀ i, 0 ≤ (regime (Time.Hour t)).1 * (0.5 + rnd i) := by
  intro i
  have h1 := regime_base_pos (Time.Hour t)
  have h2 := (hr i).1
  have h3 : (0 : ℚ) ≤ 0.5 + rnd i := by norm_num; linarith
  exact mul_nonneg (le_of_lt h1) h3

theorem mem_keptAt (t : Time) (l : List RecentEntry) (e : RecentEntry) :
    e ∈ keptAt t l ↔ e ∈ l ∧ t - travelSpan t < e.time := by
  unfold keptAt travelSpan Time.After Time.Add
  rw [List.mem_filter, decide_eq_true_eq]
  constructor
  · rintro ⟨h1, h2⟩
    exact ⟨h1, by linarith⟩
  · rintro ⟨h1, h2⟩
    exact ⟨h1, by linarith⟩

/-- A record retained for a road after the loop over the roads at `t` was
retained before, or is an arrival at `t`. -/
theorem roads_fold_mem (rnd : Nat → ℚ) (t : Time) (r : String) (names : List String) :
    ∀ (acc : BackfillState × (String → Option RoadData)) (e : RecentEntry),
      e ∈ (names.foldl (processRoad rnd t) acc).1.recentEntries r →
        e ∈ acc.1.recentEntries r ∨
          (e.time = t ∧ ∃ i, e.count = (regime (Time.Hour t)).1 * (0.5 + rnd i)) := by
  induction names with
  | nil => intro acc e h; exact Or.inl h
  | cons n names ih =>
    intro acc e h
    rw [List.foldl_cons] at h
    rcases ih _ e h with h1 | h1
    · by_cases hn : r = n
      · subst hn
        rw [processRoad_recent_self, List.mem_append] at h1
        rcases h1 with h2 | h2
        · exact Or.inl ((mem_keptAt t _ e).mp h2).1
        · obtain ⟨ht, _, i, _, _, hc⟩ := mem_arrivalsOf rnd t _ cohortPairs _ e h2
          exact Or.inr ⟨ht, i, hc⟩
      · rw [processRoad_recent_other _ _ _ _ _ hn] at h1
        exact Or.inl h1
    · exact Or.inr h1

theorem sampleTime_lt (now : Time) (j k : Nat) (h : j < k) :
    sampleTime now j < sampleTime now k := by
  unfold sampleTime
  have hm : (0 : Int) < 5 * minute := by decide
  have hjk : (j : Int) < (k : Int) := by exact_mod_cast h
  have := Int.mul_lt_mul_of_pos_right hjk hm
  linarith

theorem sampleTime_le (now : Time) (j k : Nat) (h : j ≤ k) :
    sampleTime now j ≤ sampleTime now k := by
  rcases Nat.lt_or_eq_of_le h with h1 | h1
  · exact le_of_lt (sampleTime_lt now j k h1)
  · rw [h1]

/-- Every record held before the sample of index `k` is an arrival of an
earlier sample, with a count that is not negative. -/
theorem stateAt_mem (rnd : Nat → ℚ) (hr : ∀ i, 0 ≤ rnd i ∧ rnd i < 1)
    (order : Nat → List String) (now : Time) (r : String) (k : Nat) :
    ∀ e ∈ (stateAt rnd order now k).recentEntries r,
      (∃ j, j < k ∧ e.time = sampleTime now j) ∧ 0 ≤ e.count := by
  induction k with
  | zero => intro e he; simp [stateAt_zero, BackfillState.init] at he
  | succ k ih =>
    intro e he
    rw [stateAt_succ, backfillStep] at he
    rcases roads_fold_mem rnd _ r _ _ e he with h | ⟨h1, i, h2⟩
    · obtain ⟨⟨j, hj, hj2⟩, h3⟩ := ih e h
      exact ⟨⟨j, by omega, hj2⟩, h3⟩
    · exact ⟨⟨k, by omega, h1⟩, by rw [h2]; exact arrival_nonneg rnd hr _ i⟩

/-- Once a road has been processed at the sample of index `k`, no record
at or before the cutoff of that sample is retained for it, at that sample
or at any later one. -/
theorem retainedAfter_after_cutoff (rnd : Nat → ℚ) (order : Nat → List String) (now : Time)
    (road : String) (k : Nat) (hnd : (order k).Nodup) (hmem : road ∈ order k) (j : Nat)
    (hkj : k ≤ j) :
    ∀ e ∈ retainedAfter rnd order now j road,
      sampleTime now k - travelSpan (sampleTime now k) < e.time := by
  induction j with
  | zero =>
    have hk : k = 0 := by omega
    subst hk
    intro e he
    rw [retainedAfter_eq _ _ _ _ _ hnd hmem, List.mem_append] at he
    rcases he with h | h
    · exact ((mem_keptAt _ _ e).mp h).2
    · obtain ⟨ht, _⟩ := mem_arrivalsOf rnd _ _ cohortPairs _ e h
      rw [ht]
      linarith [travelSpan_pos (sampleTime now 0)]
  | succ j ih =>
    intro e he
    by_cases hk : k = j + 1
    · subst hk
      rw [retainedAfter_eq _ _ _ _ _ hnd hmem, List.mem_append] at he
      rcases he with h | h
      · exact ((mem_keptAt _ _ e).mp h).2
      · obtain ⟨ht, _⟩ := mem_arrivalsOf rnd _ _ cohortPairs _ e h
        rw [ht]
        linarith [travelSpan_pos (sampleTime now (j + 1))]
    · unfold retainedAfter at he
      rw [stateAt_succ, backfillStep] at he
      rcases roads_fold_mem rnd _ road _ _ e he with h | ⟨h1, _⟩
      · exact ih (by omega) e h
      · rw [h1]
        have := sampleTime_le now k (j + 1) hkj
        linarith [travelSpan_pos (sampleTime now k)]

theorem dataPoints_getElem (rnd : Nat → ℚ) (order : Nat → List String) (now : Time) (k : Nat)
    (hk : k < 11) :
    ((List.range 11).map (dataPointAt rnd order now))[k]? = some (dataPointAt rnd order now k) := by
  simp [List.getElem?_map, List.getElem?_range hk]

/-- C11: backfill expiry.  For draws in `[0, 1)` and enumerations that list
each road once, at every sample `t` of the reconstruction the occupancy
emitted for a road and cohort is the sum of the counts of the records of
that cohort retained for the road after the sample, it is not negative,
and every record retained for the road at `t` or at any later sample has
an entry timestamp strictly after `t - travelTime(regime of t)`: a record
with `s <= t - travelTime` is not retained and contributes to no occupancy
from `t` on. -/
theorem backfill_expiry (rnd : Nat → ℚ) (order : Nat → List String) (now : Time)
    (road color maker : String) (hr : ∀ i, 0 ≤ rnd i ∧ rnd i < 1)
    (ho : ∀ i, (order i).Nodup ∧ road ∈ order i)
    (hc : color ∈ colors) (hm : maker ∈ makers) :
    ∃ dps, backfillDataPoints rnd order now = some dps ∧ dps.length = 11 ∧
      ∀ k, k < 11 →
        ∃ dp occ, dps[k]? = some dp ∧ dp.timestamp = Time.UnixMilli (sampleTime now k) ∧
          dp.cars road color maker = some occ ∧ 0 ≤ occ ∧
          occ = sumKey (cohortKey color maker) (retainedAfter rnd order now k road) ∧
          ∀ j, k ≤ j → j < 11 → ∀ e ∈ retainedAfter rnd order now j road,
            sampleTime now k - travelSpan (sampleTime now k) < e.time := by
  refine ⟨_, backfillDataPoints_eq rnd order now, by simp, ?_⟩
  intro k hk
  refine ⟨dataPointAt rnd order now k, _, dataPoints_getElem rnd order now k hk, rfl,
    dataPointAt_cars rnd order now k road color maker (ho k).1 (ho k).2 hc hm, ?_, rfl, ?_⟩
  · apply sumKey_nonneg
    intro e he
    exact (stateAt_mem rnd hr order now road (k + 1) e he).2
  · intro j hkj _ e he
    exact retainedAfter_after_cutoff rnd order now road k (ho k).1 (ho k).2 j hkj e he

theorem halfDraws_range : ∀ i, 0 ≤ halfDraws i ∧ halfDraws i < 1 := by
  intro i
  unfold halfDraws
  norm_num

theorem mainOrder_lists (road : String) (h : road ∈ mainRoadNames) :
    ∀ i, (mainOrder i).Nodup ∧ road ∈ mainOrder i := by
  intro i
  exact ⟨by unfold mainOrder; decide, h⟩

/-- Witness of C11: the registry of `main`, every draw `1/2`,
`now = 2024-01-01T12:00:00Z`, road `road-6`, cohort (red, Toyota). -/
theorem backfill_expiry_witness :
    ∃ dps, backfillDataPoints halfDraws mainOrder noon2024 = some dps ∧ dps.length = 11 ∧
      ∀ k, k < 11 →
        ∃ dp occ, dps[k]? = some dp ∧ dp.timestamp = Time.UnixMilli (sampleTime noon2024 k) ∧
          dp.cars "road-6" "red" "Toyota" = some occ ∧ 0 ≤ occ ∧
          occ = sumKey (cohortKey "red" "Toyota")
            (retainedAfter halfDraws mainOrder noon2024 k "road-6") ∧
          ∀ j, k ≤ j → j < 11 → ∀ e ∈ retainedAfter halfDraws mainOrder noon2024 j "road-6",
            sampleTime noon2024 k - travelSpan (sampleTime noon2024 k) < e.time :=
  backfill_expiry halfDraws mainOrder noon2024 "road-6" "red" "Toyota" halfDraws_range
    (mainOrder_lists "road-6" (by decide)) (by decide) (by decide)

/-! ## Cumulative totals -/

theorem stateAt_totals_succ (rnd : Nat → ℚ) (hr : ∀ i, 0 ≤ rnd i ∧ rnd i < 1)
    (order : Nat → List String) (now : Time) (key : String) (k : Nat) :
    (stateAt rnd order now k).totals key ≤ (stateAt rnd order now (k + 1)).totals key := by
  rw [stateAt_succ, backfillStep]
  exact roads_fold_totals_le rnd _ (arrival_nonneg rnd hr _) key (order k) _

theorem stateAt_totals_mono (rnd : Nat → ℚ) (hr : ∀ i, 0 ≤ rnd i ∧ rnd i < 1)
    (order : Nat → List String) (now : Time) (key : String) (k j : Nat) (h : k ≤ j) :
    (stateAt rnd order now k).totals key ≤ (stateAt rnd order now j).totals key := by
  induction j with
  | zero =>
    have hk : k = 0 := by omega
    rw [hk]
  | succ j ih =>
    by_cases hk : k = j + 1
    · rw [hk]
    · exact le_trans (ih (by omega)) (stateAt_totals_succ rnd hr order now key j)

/-- The total emitted for a cohort of an enumerated road at a sample lies
between the shared totals before and after the sample. -/
theorem dataPointAt_total (rnd : Nat → ℚ) (hr : ∀ i, 0 ≤ rnd i ∧ rnd i < 1)
    (order : Nat → List String) (now : Time) (k : Nat) (road color maker : String)
    (hmem : road ∈ order k) (hc : color ∈ colors) (hm : maker ∈ makers) :
    ∃ a, (dataPointAt rnd order now k).total road color maker = some a ∧
      (stateAt rnd order now k).totals (cohortKey color maker) ≤ a ∧
      a ≤ (stateAt rnd order now (k + 1)).totals (cohortKey color maker) := by
  obtain ⟨rd, hrd, hb⟩ := roads_fold_totals rnd (sampleTime now k)
    (arrival_nonneg rnd hr _) road (order k) (stateAt rnd order now k, fun _ => none) hmem
  have hp : (color, maker) ∈ cohortPairs := by
    unfold cohortPairs
    exact List.mem_product.mpr ⟨hc, hm⟩
  have h := hb (color, maker) hp
  refine ⟨rd.totals (cohortKey color maker), ?_, h.1, ?_⟩
  · unfold DataPoint.total dataPointAt backfillStep
    simp only []
    rw [hrd, Option.map_some']
  · rw [stateAt_succ, backfillStep]
    exact h.2

theorem sampleTime_mem (now : Time) (k : Nat) (hk : k < 11) :
    sampleTime now k ∈ (List.range 11).map
      (fun (k : Nat) => backfillStartTime now + (k : Int) * (5 * minute)) :=
  List.mem_map.mpr ⟨k, List.mem_range.mpr hk, rfl⟩

theorem sampleTime_unixMilli_lt (now : Time) (k j : Nat) (hkj : k < j) (hj : j < 11) :
    Time.UnixMilli (sampleTime now k) < Time.UnixMilli (sampleTime now j) := by
  have h1 := (backfillTimestamps_mem now _ (backfillTimestamps_eq now) _
    (sampleTime_mem now k (by omega))).1
  have h2 := (backfillTimestamps_mem now _ (backfillTimestamps_eq now) _
    (sampleTime_mem now j hj)).1
  have h3 := sampleTime_lt now k j hkj
  rw [← h1, ← h2] at h3
  have hm : (0 : Int) < millisecond := by decide
  exact lt_of_mul_lt_mul_right h3 (le_of_lt hm)

/-- C12: cumulative totals are monotone.  For draws in `[0, 1)` and a road
listed by every enumeration, for every cohort and every pair of samples
`t1 < t2` of one reconstruction, the total emitted for (road, cohort) at
`t1` is at most the one emitted at `t2`. -/
theorem backfill_totals_monotone (rnd : Nat → ℚ) (order : Nat → List String) (now : Time)
    (road color maker : String) (hr : ∀ i, 0 ≤ rnd i ∧ rnd i < 1)
    (ho : ∀ i, road ∈ order i) (hc : color ∈ colors) (hm : maker ∈ makers) :
    ∃ dps, backfillDataPoints rnd order now = some dps ∧
      ∀ k j, k < j → j < 11 →
        ∃ dk dj a b, dps[k]? = some dk ∧ dps[j]? = some dj ∧ dk.timestamp < dj.timestamp ∧
          dk.total road color maker = some a ∧ dj.total road color maker = some b ∧ a ≤ b := by
  refine ⟨_, backfillDataPoints_eq rnd order now, ?_⟩
  intro k j hkj hj
  obtain ⟨a, ha, _, ha2⟩ := dataPointAt_total rnd hr order now k road color maker (ho k) hc hm
  obtain ⟨b, hb, hb1, _⟩ := dataPointAt_total rnd hr order now j road color maker (ho j) hc hm
  refine ⟨dataPointAt rnd order now k, dataPointAt rnd order now j, a, b,
    dataPoints_getElem rnd order now k (by omega), dataPoints_getElem rnd order now j hj,
    sampleTime_unixMilli_lt now k j hkj hj, ha, hb, ?_⟩
  exact le_trans ha2
    (le_trans (stateAt_totals_mono rnd hr order now _ (k + 1) j (by omega)) hb1)

/-- Witness of C12: the registry of `main`, every draw `1/2`,
`now = 2024-01-01T12:00:00Z`, road `road-6`, cohort (red, Toyota). -/
theorem backfill_totals_monotone_witness :
    ∃ dps, backfillDataPoints halfDraws mainOrder noon2024 = some dps ∧
      ∀ k j, k < j → j < 11 →
        ∃ dk dj a b, dps[k]? = some dk ∧ dps[j]? = some dj ∧ dk.timestamp < dj.timestamp ∧
          dk.total "road-6" "red" "Toyota" = some a ∧
          dj.total "road-6" "red" "Toyota" = some b ∧ a ≤ b :=
  backfill_totals_monotone halfDraws mainOrder noon2024 "road-6" "red" "Toyota" halfDraws_range
    (fun i => ((mainOrder_lists "road-6" (by decide)) i).2) (by decide) (by decide)

/-! ## Occupancy as a sum of surviving arrivals -/

theorem cohortKeys_nodup : (cohortPairs.map (fun p => cohortKey p.1 p.2)).Nodup := by
  decide

/-- Over pairs with distinct keys, the records of the arrival loops filed
under the key of a pair sum to the one arrival of the pair. -/
theorem arrivalsOf_sumKey (rnd : Nat → ℚ) (t : Time) (base : ℚ)
    (ps : List (String × String)) :
    (ps.map (fun p => cohortKey p.1 p.2)).Nodup →
    ∀ (d : Nat) (p : String × String), p ∈ ps →
      sumKey (cohortKey p.1 p.2) (arrivalsOf rnd t base ps d) =
        base * (0.5 + rnd (d + ps.indexOf p)) := by
  induction ps with
  | nil => intro _ d p hp; simp at hp
  | cons p0 ps ih =>
    intro hnd d p hp
    rw [List.map_cons, List.nodup_cons] at hnd
    simp only [arrivalsOf, sumKey_cons]
    by_cases hpp : p = p0
    · subst hpp
      have hz : sumKey (cohortKey p.1 p.2) (arrivalsOf rnd t base ps (d + 1)) = 0 := by
        apply sumKey_eq_zero
        intro e he hek
        obtain ⟨_, hmem, _⟩ := mem_arrivalsOf rnd t base ps _ e he
        exact hnd.1 (List.mem_map.mpr ⟨(e.color, e.maker), hmem, hek⟩)
      rw [hz, List.indexOf_cons]
      simp
    · have hrest : p ∈ ps := by
        rcases List.mem_cons.mp hp with h | h
        · exact absurd h hpp
        · exact h
      have hk : ¬ cohortKey p0.1 p0.2 = cohortKey p.1 p.2 := by
        intro h
        exact hnd.1 (List.mem_map.mpr ⟨p, hrest, h.symm⟩)
      have hpp' : (p0 == p) = false := by
        rw [beq_eq_false_iff_ne]
        exact fun h => hpp h.symm
      rw [if_neg hk, ih hnd.2 (d + 1) p hrest, List.indexOf_cons, hpp']
      simp only [zero_add, cond_false]
      congr 3
      omega

/-- The records of a cohort among the arrivals of a road at a sample sum
to the arrival quantity of the cohort. -/
theorem arrivalsAt_sumKey (rnd : Nat → ℚ) (order : Nat → List String) (now : Time) (j : Nat)
    (road color maker : String) (hc : color ∈ colors) (hm : maker ∈ makers) :
    sumKey (cohortKey color maker) (arrivalsAt rnd order now j road) =
      arrivalQty rnd order now j road color maker := by
  have hp : (color, maker) ∈ cohortPairs := by
    unfold cohortPairs
    exact List.mem_product.mpr ⟨hc, hm⟩
  unfold arrivalsAt arrivalsFrom arrivalQty
  exact arrivalsOf_sumKey rnd _ _ cohortPairs cohortKeys_nodup _ (color, maker) hp

theorem survives_of_le (now : Time) (j k : Nat) (h : k ≤ j) : survives now j k = true := by
  unfold survives
  rw [List.all_eq_true]
  intro u hu
  have := List.mem_range.mp hu
  exact decide_eq_true (Or.inl (by omega))

theorem survives_succ (now : Time) (j k : Nat) (h : j ≤ k) :
    survives now j (k + 1) =
      (survives now j k &&
        decide (sampleTime now (k + 1) - travelSpan (sampleTime now (k + 1)) < sampleTime now j)) := by
  unfold survives
  rw [List.range_succ, List.all_append]
  congr 1
  have hne : ¬ k + 1 ≤ j := by omega
  simp [hne]

theorem survives_iff (now : Time) (j k : Nat) :
    survives now j k = true ↔
      ∀ u, j < u → u ≤ k → sampleTime now u - travelSpan (sampleTime now u) < sampleTime now j := by
  unfold survives
  rw [List.all_eq_true]
  constructor
  · intro h u hju huk
    have := h u (List.mem_range.mpr (by omega))
    rw [decide_eq_true_eq] at this
    rcases this with h1 | h1
    · omega
    · exact h1
  · intro h u hu
    have hu' := List.mem_range.mp hu
    by_cases hju : u ≤ j
    · exact decide_eq_true (Or.inl hju)
    · exact decide_eq_true (Or.inr (h u (by omega) (by omega)))

theorem keptAt_append (t : Time) (l1 l2 : List RecentEntry) :
    keptAt t (l1 ++ l2) = keptAt t l1 ++ keptAt t l2 := by
  unfold keptAt
  rw [List.filter_append]

theorem keptAt_recordsUpTo (t : Time) (f : Nat → List RecentEntry) (n : Nat) :
    keptAt t (recordsUpTo f n) = recordsUpTo (fun j => keptAt t (f j)) n := by
  induction n with
  | zero => rfl
  | succ n ih => simp only [recordsUpTo, keptAt_append, ih]

theorem recordsUpTo_congr (f g : Nat → List RecentEntry) (n : Nat)
    (h : ∀ j, j < n → f j = g j) : recordsUpTo f n = recordsUpTo g n := by
  induction n with
  | zero => rfl
  | succ n ih =>
    simp only [recordsUpTo]
    rw [ih (fun j hj => h j (by omega)), h n (by omega)]

theorem sumKey_recordsUpTo (key : String) (f : Nat → List RecentEntry) (n : Nat) :
    sumKey key (recordsUpTo f n) = ∑ j in Finset.range n, sumKey key (f j) := by
  induction n with
  | zero => simp [recordsUpTo, sumKey_nil]
  | succ n ih => rw [recordsUpTo, sumKey_append, ih, Finset.sum_range_succ]

/-- The arrivals of a sample pass a cutoff together or not at all. -/
theorem keptAt_arrivalsAt (rnd : Nat → ℚ) (order : Nat → List String) (now : Time) (t : Time)
    (j : Nat) (road : String) :
    keptAt t (arrivalsAt rnd order now j road) =
      if t - travelSpan t < sampleTime now j then arrivalsAt rnd order now j road else [] := by
  have hmem : ∀ e ∈ arrivalsAt rnd order now j road, e.time = sampleTime now j := by
    intro e he
    exact (mem_arrivalsOf rnd _ _ cohortPairs _ e he).1
  split_ifs with h
  · apply List.filter_eq_self.mpr
    intro e he
    have := (mem_keptAt t [e] e).mpr ⟨List.mem_singleton_self e, by rw [hmem e he]; exact h⟩
    unfold keptAt at this
    simpa using this
  · apply List.filter_eq_nil_iff.mpr
    intro e he hk
    have : e ∈ keptAt t (arrivalsAt rnd order now j road) := by
      unfold keptAt
      exact List.mem_filter.mpr ⟨he, hk⟩
    have h2 := ((mem_keptAt t _ e).mp this).2
    rw [hmem e he] at h2
    exact h h2

/-- The records retained for a road after the sample of index `k` are the
arrivals of the samples up to `k` that pass every cutoff up to `k`. -/
theorem retainedAfter_closed (rnd : Nat → ℚ) (order : Nat → List String) (now : Time)
    (road : String) (ho : ∀ i, (order i).Nodup ∧ road ∈ order i) (k : Nat) :
    retainedAfter rnd order now k road =
      recordsUpTo
        (fun j => if survives now j k = true then arrivalsAt rnd order now j road else [])
        (k + 1) := by
  induction k with
  | zero =>
    rw [retainedAfter_eq _ _ _ _ _ (ho 0).1 (ho 0).2]
    simp [stateAt_zero, BackfillState.init, keptAt, recordsUpTo, survives_of_le]
  | succ k ih =>
    rw [retainedAfter_eq _ _ _ _ _ (ho (k + 1)).1 (ho (k + 1)).2]
    have hprev : (stateAt rnd order now (k + 1)).recentEntries road =
        retainedAfter rnd order now k road := rfl
    rw [hprev, ih, keptAt_recordsUpTo]
    conv_rhs => rw [recordsUpTo]
    rw [if_pos (survives_of_le now (k + 1) (k + 1) (le_refl _))]
    congr 1
    apply recordsUpTo_congr
    intro j hj
    rw [survives_succ now j k (by omega)]
    by_cases hs : survives now j k = true
    · rw [if_pos hs, keptAt_arrivalsAt, hs, Bool.true_and]
      by_cases hc : sampleTime now (k + 1) - travelSpan (sampleTime now (k + 1)) < sampleTime now j
      · rw [if_pos hc, if_pos (decide_eq_true hc)]
      · rw [if_neg hc, if_neg (by simpa using hc)]
    · rw [if_neg hs]
      have hs' : survives now j k = false := by simpa using hs
      rw [hs', Bool.false_and]
      simp [keptAt]

/-- The occupancy emitted at a sample is the sum of the arrival quantities
of the samples whose records pass every cutoff up to that sample. -/
theorem dataPointAt_cars_retainedSum (rnd : Nat → ℚ) (order : Nat → List String) (now : Time)
    (road color maker : String) (ho : ∀ i, (order i).Nodup ∧ road ∈ order i)
    (hc : color ∈ colors) (hm : maker ∈ makers) (k : Nat) :
    (dataPointAt rnd order now k).cars road color maker =
      some (retainedSum rnd order now k road color maker) := by
  rw [dataPointAt_cars rnd order now k road color maker (ho k).1 (ho k).2 hc hm,
    retainedAfter_closed rnd order now road ho k, sumKey_recordsUpTo]
  unfold retainedSum
  congr 1
  apply Finset.sum_congr rfl
  intro j _
  split_ifs
  · exact arrivalsAt_sumKey rnd order now j road color maker hc hm
  · exact sumKey_nil _

/-- Under one travel time at all samples up to `k`, the surviving arrivals
are those of the sliding window of the sample `k`. -/
theorem retainedSum_eq_slidingSum (rnd : Nat → ℚ) (order : Nat → List String) (now : Time)
    (road color maker : String) (k : Nat)
    (hsame : ∀ u, u ≤ k → travelSpan (sampleTime now u) = travelSpan (sampleTime now k)) :
    retainedSum rnd order now k road color maker =
      slidingSum rnd order now k road color maker := by
  unfold retainedSum slidingSum
  apply Finset.sum_congr rfl
  intro j hj
  have hjk : j ≤ k := by have := Finset.mem_range.mp hj; omega
  have hiff : survives now j k = true ↔
      sampleTime now k - travelSpan (sampleTime now k) < sampleTime now j := by
    rw [survives_iff]
    constructor
    · intro h
      rcases Nat.lt_or_eq_of_le hjk with h1 | h1
      · exact h k h1 (le_refl k)
      · rw [h1]; linarith [travelSpan_pos (sampleTime now k)]
    · intro h u _ huk
      rw [hsame u huk]
      linarith [sampleTime_le now u k huk]
  by_cases hs : survives now j k = true
  · rw [if_pos hs, if_pos (hiff.mp hs)]
  · rw [if_neg hs, if_neg (fun h => hs (hiff.mpr h))]

/-- C20 as stated is false: with the registry of `main`, every draw `1/2`
and `now = 2024-01-01T05:30:30Z`, the sample of index 6 is 05:04 (hour 5,
travel time 25 min); the occupancy emitted there for (`road-1`, red,
Toyota) is 3, while the arrivals at the samples after 04:39 (04:44, 04:49,
04:54, 04:59 at `0.5` each, 05:04 at `2`) sum to 4: the records of 04:44 and
04:49 were dropped at 04:54 and 04:59 under the night travel time of 10
min. -/
theorem sliding_window_fails_at_dawn :
    sampleTime dawn2024 6 = utcDate 2024 1 1 5 4 0 ∧
    (backfillDataPoints halfDraws mainOrder dawn2024).bind
      (fun dps => dps[6]?.bind (fun dp => dp.cars "road-1" "red" "Toyota")) = some 3 ∧
    slidingSum halfDraws mainOrder dawn2024 6 "road-1" "red" "Toyota" = 4 := by
  decide!

/-- C20 amended: for enumerations that list each road once, the occupancy
emitted for (road, cohort) at the sample `t` is the sum of the arrival
quantities drawn for that road and cohort at exactly those samples
`s <= t` with `u - travelTime(regime of u) < s` for every sample `u` with
`s < u <= t`; when the travel time is the same at all samples up to `t`,
these are the samples with `t - travelTime(regime of t) < s <= t`. -/
theorem backfill_occupancy_survivors (rnd : Nat → ℚ) (order : Nat → List String) (now : Time)
    (road color maker : String) (ho : ∀ i, (order i).Nodup ∧ road ∈ order i)
    (hc : color ∈ colors) (hm : maker ∈ makers) :
    ∃ dps, backfillDataPoints rnd order now = some dps ∧
      ∀ k, k < 11 →
        ∃ dp, dps[k]? = some dp ∧
          dp.cars road color maker = some (retainedSum rnd order now k road color maker) ∧
          (∀ j, survives now j k = true ↔
            ∀ u, j < u → u ≤ k →
              sampleTime now u - travelSpan (sampleTime now u) < sampleTime now j) ∧
          ((∀ u, u ≤ k → travelSpan (sampleTime now u) = travelSpan (sampleTime now k)) →
            retainedSum rnd order now k road color maker =
              slidingSum rnd order now k road color maker) := by
  refine ⟨_, backfillDataPoints_eq rnd order now, ?_⟩
  intro k hk
  exact ⟨dataPointAt rnd order now k, dataPoints_getElem rnd order now k hk,
    dataPointAt_cars_retainedSum rnd order now road color maker ho hc hm k,
    fun j => survives_iff now j k,
    retainedSum_eq_slidingSum rnd order now road color maker k⟩

/-- Witness of C20 amended: the registry of `main`, every draw `1/2`,
`now = 2024-01-01T05:30:30Z`, road `road-1`, cohort (red, Toyota). -/
theorem backfill_occupancy_survivors_witness :
    ∃ dps, backfillDataPoints halfDraws mainOrder dawn2024 = some dps ∧
      ∀ k, k < 11 →
        ∃ dp, dps[k]? = some dp ∧
          dp.cars "road-1" "red" "Toyota" =
            some (retainedSum halfDraws mainOrder dawn2024 k "road-1" "red" "Toyota") ∧
          (∀ j, survives dawn2024 j k = true ↔
            ∀ u, j < u → u ≤ k →
              sampleTime dawn2024 u - travelSpan (sampleTime dawn2024 u) < sampleTime dawn2024 j) ∧
          ((∀ u, u ≤ k →
              travelSpan (sampleTime dawn2024 u) = travelSpan (sampleTime dawn2024 k)) →
            retainedSum halfDraws mainOrder dawn2024 k "road-1" "red" "Toyota" =
              slidingSum halfDraws mainOrder dawn2024 k "road-1" "red" "Toyota") :=
  backfill_occupancy_survivors halfDraws mainOrder dawn2024 "road-1" "red" "Toyota"
    (mainOrder_lists "road-1" (by decide)) (by decide) (by decide)

/-! ## Dependence on the enumeration order -/

/-- C13 as stated is false: with `now = 2024-01-01T12:00:00Z` and the draws
`0` (25 times) then `1/2`, two enumerations of the registry of `main`, one
the reverse of the other, give the first sample of (`road-1`, red, Toyota)
the occupancies 1 and 2: the draws are consumed in enumeration order. -/
theorem backfill_depends_on_enumeration :
    (∀ i, (mainOrder i).Perm (reversedOrder i)) ∧
    (backfillDataPoints stepDraws mainOrder noon2024).bind
      (fun dps => dps[0]?.bind (fun dp => dp.cars "road-1" "red" "Toyota")) = some 1 ∧
    (backfillDataPoints stepDraws reversedOrder noon2024).bind
      (fun dps => dps[0]?.bind (fun dp => dp.cars "road-1" "red" "Toyota")) = some 2 := by
  refine ⟨fun i => (List.reverse_perm _).symm, ?_, ?_⟩ <;> decide!

theorem stateAt_congr (rnd : Nat → ℚ) (order order' : Nat → List String) (now : Time)
    (k : Nat) (h : ∀ i, i < k → order i = order' i) :
    stateAt rnd order now k = stateAt rnd order' now k := by
  induction k with
  | zero => rfl
  | succ k ih =>
    rw [stateAt_succ, stateAt_succ, ih (fun i hi => h i (by omega)), h k (by omega)]

/-- C13 amended: for a fixed clock value, a fixed sequence of draws and
enumerations of the registry that agree at each of the 11 timestamps, two
reconstructions yield the same data points. -/
theorem backfill_deterministic_given_order (rnd rnd' : Nat → ℚ)
    (order order' : Nat → List String) (now : Time)
    (hrnd : ∀ i, rnd i = rnd' i) (horder : ∀ i, i < 11 → order i = order' i) :
    backfillDataPoints rnd order now = backfillDataPoints rnd' order' now := by
  have hfun : rnd = rnd' := funext hrnd
  subst hfun
  rw [backfillDataPoints_eq, backfillDataPoints_eq]
  congr 1
  apply List.map_congr_left
  intro k hk
  have hk' := List.mem_range.mp hk
  unfold dataPointAt
  rw [stateAt_congr rnd order order' now k (fun i hi => horder i (by omega)), horder k hk']

/-- Witness of C13 amended: an enumeration that differs from `mainOrder`
only from index 11 on. -/
theorem backfill_deterministic_given_order_witness :
    backfillDataPoints halfDraws mainOrder noon2024 =
      backfillDataPoints halfDraws
        (fun i => if i < 11 then mainRoadNames else mainRoadNames.reverse) noon2024 :=
  backfill_deterministic_given_order halfDraws halfDraws mainOrder
    (fun i => if i < 11 then mainRoadNames else mainRoadNames.reverse) noon2024
    (fun _ => rfl) (fun i hi => by simp [mainOrder, hi])

/-! ## The time series of the write request -/

theorem appendCohort_fold_length (dp : DataPoint) (road : String) (rd : RoadData)
    (ps : List (String × String)) :
    ∀ (acc : List TimeSeries),
      (ps.foldl (fun a p => appendCohort dp road rd p.1 a p.2) acc).length =
        acc.length + 2 * ps.length := by
  induction ps with
  | nil => intro acc; simp
  | cons p ps ih =>
    intro acc
    rw [List.foldl_cons, ih]
    simp only [appendCohort, List.length_append, List.length_cons, List.length_nil]
    omega

theorem appendCohort_fold_samples (dp : DataPoint) (road : String) (rd : RoadData)
    (ps : List (String × String)) :
    ∀ (acc : List TimeSeries), (∀ s ∈ acc, s.samples.length = 1) →
      ∀ s ∈ ps.foldl (fun a p => appendCohort dp road rd p.1 a p.2) acc,
        s.samples.length = 1 := by
  induction ps with
  | nil => intro acc h; exact h
  | cons p ps ih =>
    intro acc h
    rw [List.foldl_cons]
    apply ih
    intro s hs
    simp only [appendCohort, List.mem_append, List.mem_cons, List.mem_singleton,
      List.not_mem_nil, or_false] at hs
    rcases hs with hs | hs | hs
    · exact h s hs
    · rw [hs]; rfl
    · rw [hs]; rfl

theorem appendRoad_of_some (dp : DataPoint) (acc : List TimeSeries) (road : String)
    (rd : RoadData) (h : dp.roadData road = some rd) :
    appendRoad dp acc road =
      cohortPairs.foldl (fun a p => appendCohort dp road rd p.1 a p.2) acc := by
  unfold appendRoad
  rw [h]
  exact nested_loops_eq (fun color => appendCohort dp road rd color) acc

theorem appendRoad_samples (dp : DataPoint) (acc : List TimeSeries) (road : String)
    (h : ∀ s ∈ acc, s.samples.length = 1) :
    ∀ s ∈ appendRoad dp acc road, s.samples.length = 1 := by
  cases hrd : dp.roadData road with
  | none =>
    have : appendRoad dp acc road = acc := by unfold appendRoad; rw [hrd]
    rw [this]; exact h
  | some rd =>
    rw [appendRoad_of_some dp acc road rd hrd]
    exact appendCohort_fold_samples dp road rd cohortPairs acc h

theorem appendRoad_fold_samples (dp : DataPoint) (names : List String) :
    ∀ (acc : List TimeSeries), (∀ s ∈ acc, s.samples.length = 1) →
      ∀ s ∈ names.foldl (appendRoad dp) acc, s.samples.length = 1 := by
  induction names with
  | nil => intro acc h; exact h
  | cons n names ih =>
    intro acc h
    rw [List.foldl_cons]
    exact ih _ (appendRoad_samples dp acc n h)

theorem appendRoad_fold_length (dp : DataPoint) (names : List String) :
    ∀ (acc : List TimeSeries), (∀ r ∈ names, ∃ rd, dp.roadData r = some rd) →
      (names.foldl (appendRoad dp) acc).length = acc.length + 50 * names.length := by
  induction names with
  | nil => intro acc _; simp
  | cons n names ih =>
    intro acc h
    obtain ⟨rd, hrd⟩ := h n (List.mem_cons_self _ _)
    rw [List.foldl_cons, ih _ (fun r hr => h r (List.mem_cons_of_mem _ hr)),
      appendRoad_of_some dp acc n rd hrd, appendCohort_fold_length, List.length_cons]
    have : cohortPairs.length = 25 := rfl
    rw [this]
    omega

/-- Every time series built by the second pass carries exactly one
sample. -/
theorem buildTimeseries_samples (order2 : Nat → List String) (dps : List DataPoint) :
    ∀ (i : Nat) (acc : List TimeSeries), (∀ s ∈ acc, s.samples.length = 1) →
      ∀ s ∈ buildTimeseries order2 dps i acc, s.samples.length = 1 := by
  induction dps with
  | nil => intro i acc h; exact h
  | cons dp dps ih =>
    intro i acc h
    rw [buildTimeseries]
    exact ih _ _ (appendRoad_fold_samples dp (order2 i) acc h)

/-- The second pass appends 50 time series for every road of every data
point. -/
theorem buildTimeseries_length (names : List String) (dps : List DataPoint)
    (hdps : ∀ dp ∈ dps, ∀ r ∈ names, ∃ rd, dp.roadData r = some rd) :
    ∀ (i : Nat) (acc : List TimeSeries),
      (buildTimeseries (fun _ => names) dps i acc).length =
        acc.length + 50 * names.length * dps.length := by
  induction dps with
  | nil => intro i acc; simp [buildTimeseries]
  | cons dp dps ih =>
    intro i acc
    rw [buildTimeseries, ih (fun d hd => hdps d (List.mem_cons_of_mem _ hd)),
      appendRoad_fold_length dp names acc (hdps dp (List.mem_cons_self _ _)), List.length_cons]
    ring

theorem roads_fold_isSome (rnd : Nat → ℚ) (t : Time) (road : String) (names : List String) :
    ∀ (acc : BackfillState × (String → Option RoadData)),
      ((∃ rd, acc.2 road = some rd) ∨ road ∈ names) →
      ∃ rd, (names.foldl (processRoad rnd t) acc).2 road = some rd := by
  induction names with
  | nil =>
    intro acc h
    rcases h with h | h
    · exact h
    · simp at h
  | cons n names ih =>
    intro acc h
    rw [List.foldl_cons]
    apply ih
    by_cases hn : road = n
    · left
      subst hn
      obtain ⟨rd, hrd, _⟩ := processRoad_snd_self rnd t acc road
      exact ⟨rd, hrd⟩
    · rcases h with h | h
      · left
        rw [processRoad_snd_other _ _ _ _ _ hn]
        exact h
      · right
        rcases List.mem_cons.mp h with h1 | h1
        · exact absurd h1 hn
        · exact h1

theorem appendCohort_fold_labels (dp : DataPoint) (road : String) (rd : RoadData)
    (ps : List (String × String)) :
    ∀ (acc : List TimeSeries),
      (ps.foldl (fun a p => appendCohort dp road rd p.1 a p.2) acc).map TimeSeries.labels =
        acc.map TimeSeries.labels ++ cohortLabels road ps := by
  induction ps with
  | nil => intro acc; simp [cohortLabels]
  | cons p ps ih =>
    intro acc
    rw [List.foldl_cons, ih]
    simp [appendCohort, cohortLabels]

theorem appendRoad_fold_labels (dp : DataPoint) (names : List String) :
    ∀ (acc : List TimeSeries), (∀ r ∈ names, ∃ rd, dp.roadData r = some rd) →
      (names.foldl (appendRoad dp) acc).map TimeSeries.labels =
        acc.map TimeSeries.labels ++ roadLabels names := by
  induction names with
  | nil => intro acc _; simp [roadLabels]
  | cons n names ih =>
    intro acc h
    obtain ⟨rd, hrd⟩ := h n (List.mem_cons_self _ _)
    rw [List.foldl_cons, ih _ (fun r hr => h r (List.mem_cons_of_mem _ hr)),
      appendRoad_of_some dp acc n rd hrd, appendCohort_fold_labels, roadLabels,
      List.append_assoc]

/-- The label sets of the time series are the label sets of one data point,
repeated for every data point. -/
theorem buildTimeseries_labels (names : List String) (dps : List DataPoint)
    (hdps : ∀ dp ∈ dps, ∀ r ∈ names, ∃ rd, dp.roadData r = some rd) :
    ∀ (i : Nat) (acc : List TimeSeries),
      (buildTimeseries (fun _ => names) dps i acc).map TimeSeries.labels =
        acc.map TimeSeries.labels ++ repeatLabels (roadLabels names) dps.length := by
  induction dps with
  | nil => intro i acc; simp [buildTimeseries, repeatLabels]
  | cons dp dps ih =>
    intro i acc
    rw [buildTimeseries, ih (fun d hd => hdps d (List.mem_cons_of_mem _ hd)),
      appendRoad_fold_labels dp names acc (hdps dp (List.mem_cons_self _ _)), List.length_cons,
      repeatLabels, List.append_assoc]

theorem mainLabels_repeat :
    (repeatLabels (roadLabels mainRoadNames) 11)[0]? =
      (repeatLabels (roadLabels mainRoadNames) 11)[250]? := by
  decide!

/-- C14 (fails on the code): the write request does not hold one time
series per (road, cohort, metric) with 11 samples each.  For the registry
of `main` (5 roads), every random source and every clock value, the list
`timeseries` holds `11 * 5 * 25 * 2 = 2750` time series (not
`5 * 25 * 2 = 250`), every one of them carries exactly one sample, and
label sets repeat: the series of index 0 and of index 250 have the same
labels. -/
theorem timeseries_one_sample_each (rnd : Nat → ℚ) (now : Time) :
    ∃ tss, backfillTimeseries rnd mainOrder mainOrder now = some tss ∧
      tss.length = 2750 ∧ (∀ s ∈ tss, s.samples.length = 1) ∧
      (tss.map TimeSeries.labels)[0]? = (tss.map TimeSeries.labels)[250]? := by
  have hsome : ∀ dp ∈ (List.range 11).map (dataPointAt rnd mainOrder now),
      ∀ r ∈ mainRoadNames, ∃ rd, dp.roadData r = some rd := by
    intro dp hdp r hr
    obtain ⟨k, _, rfl⟩ := List.mem_map.mp hdp
    exact roads_fold_isSome rnd _ r _ _ (Or.inr hr)
  have hm : mainOrder = fun _ => mainRoadNames := rfl
  unfold backfillTimeseries
  rw [backfillDataPoints_eq, Option.map_some']
  refine ⟨_, rfl, ?_, ?_, ?_⟩
  · have h := buildTimeseries_length mainRoadNames _ hsome 0 []
    rw [hm] at h ⊢
    rw [h]
    simp [mainRoadNames]
  · exact buildTimeseries_samples mainOrder _ 0 [] (fun s hs => by simp at hs)
  · have h := buildTimeseries_labels mainRoadNames _ hsome 0 []
    rw [hm] at h ⊢
    rw [h]
    simp only [List.map_nil, List.nil_append, List.length_map, List.length_range]
    exact mainLabels_repeat


end RoadTraffic
